import Mathlib

/-!
Verification of the SwitchBuffer ring-buffer engine
(`switchbuffer_impl.h`, `detail::SwitchBufferImpl`).

The engine keeps a ring of `Buffer` slots, a producer with two ring
iterators (`curr` = most recently produced slot, `next` = in-production
slot, both starting at the invalid index `ring.size()`), and a vector of
consumers, each with a read iterator `pos`, flags `isFull`/`isEmpty`, a
`sanctuary` spare buffer and at most one pending promise.

The shallow embedding below mirrors the C++ code:
* `Buffer` is modelled as `ℕ` (the payload is opaque in the code);
* a ring-iterator position is a `ℕ`, with `ring.length` as the invalid
  sentinel, and increment `(p + 1) % ring.length`;
* a pending `std::promise` is a `Bool` flag on the consumer; fulfilling a
  promise is recorded as an observation event `(parent, value)`;
* `SwitchProducer` takes the value the producer writes into the returned
  slot before the next operation (the reference returned by the C++
  function is filled by the caller between two switches).
-/

/-- Per-consumer bookkeeping, mirroring `SwitchBufferImpl::Consumer`:
`parent` is the registration id (the C++ code uses the parent address),
`pos` the in-consumption ring position, `sanctuary` the spare buffer used
to save an in-consumption slot before the producer overwrites it, and
`promise` records whether a one-shot notification is pending. -/
structure Consumer where
  parent : ℕ
  pos : ℕ
  isFull : Bool
  isEmpty : Bool
  sanctuary : ℕ
  promise : Bool
deriving Repr, DecidableEq

/-- Producer bookkeeping, mirroring `SwitchBufferImpl::Producer`:
`curr` points to the most recently produced slot, `next` to the
in-production slot; both start at the invalid index (the ring size). -/
structure Producer where
  curr : ℕ
  next : ℕ
  isClosed : Bool
deriving Repr, DecidableEq

/-- The whole engine state, mirroring `SwitchBufferImpl`: the ring of
buffers, the producer state and the registered consumers (in
registration order, as in the C++ `std::vector`). -/
structure SwitchBufferImpl where
  ring : List ℕ
  producer : Producer
  consumers : List Consumer
deriving Repr, DecidableEq

/-- Ring-iterator increment: `++m_pos; m_pos %= m_ring->size()`. -/
def ringInc (n p : ℕ) : ℕ := (p + 1) % n

/-- The state right after `SwitchBufferImpl(size_t ringBufferSize)`:
every slot holds a default-constructed buffer, both producer iterators
are at the invalid index, no consumer is registered. -/
def initImpl (n : ℕ) : SwitchBufferImpl :=
  ⟨List.replicate n 0, ⟨n, n, false⟩, []⟩

/-- The error thrown by the capacity-validating constructor revision. -/
inductive CreateError where
  | configurationError
deriving Repr, DecidableEq

/-- Capacity-validating construction, mirroring the constructor revision
in `part_005` (`if (ringBufferSize <= 1U) throw std::logic_error(...)`). -/
def mkSwitchBufferImpl (ringBufferSize : ℕ) : Except CreateError SwitchBufferImpl :=
  if ringBufferSize ≤ 1 then .error .configurationError
  else .ok (initImpl ringBufferSize)

/-- Mirrors `SwitchBufferImpl::CreateConsumer`: appends a fresh consumer
with invalid `pos`, `isFull = false`, `isEmpty = true`, a
default-constructed sanctuary and no pending promise. -/
def CreateConsumer (s : SwitchBufferImpl) (parent : ℕ) : SwitchBufferImpl :=
  { s with consumers := s.consumers ++ [⟨parent, s.ring.length, false, true, 0, false⟩] }

/-- Mirrors `SwitchBufferImpl::CloseProducer`: sets the closed flag and
breaks (discards) every pending promise. -/
def CloseProducer (s : SwitchBufferImpl) : SwitchBufferImpl :=
  { s with
    producer := { s.producer with isClosed := true },
    consumers := s.consumers.map fun c => { c with promise := false } }

/-- Mirrors `SwitchBufferImpl::CloseConsumer`: erases the first consumer
registered under `parent`. -/
def CloseConsumer (s : SwitchBufferImpl) (parent : ℕ) : SwitchBufferImpl :=
  { s with consumers := s.consumers.eraseP fun c => c.parent == parent }

/-- The `// save buffers that are currently consumed` loop of
`SwitchProducer`: for every consumer whose `pos` equals the new `next`,
set `isFull` and exchange the ring slot with the consumer's sanctuary.
The ring is threaded through the loop because each swap rewrites the
slot. -/
def saveConsumed (nxt : ℕ) : List ℕ → List Consumer → List ℕ × List Consumer
  | ring, [] => (ring, [])
  | ring, c :: cs =>
    if nxt == c.pos then
      let res := saveConsumed nxt (ring.set nxt c.sanctuary) cs
      (res.1, { c with isFull := true, sanctuary := ring.getD nxt 0 } :: res.2)
    else
      let res := saveConsumed nxt ring cs
      (res.1, c :: res.2)

/-- The `// notify Consumers` loop of `SwitchProducer`: a consumer with a
pending promise gets `pos := curr` and its promise fulfilled with the
buffer at `curr` (recorded as an observation event); a consumer without
one gets `isEmpty := false`. -/
def notifyConsumers (currPos currVal : ℕ) : List Consumer → List Consumer × List (ℕ × ℕ)
  | [] => ([], [])
  | c :: cs =>
    let res := notifyConsumers currPos currVal cs
    if c.promise then
      ({ c with pos := currPos, promise := false } :: res.1, (c.parent, currVal) :: res.2)
    else
      ({ c with isEmpty := false } :: res.1, res.2)

/-- Mirrors `SwitchBufferImpl::SwitchProducer`, composed with the
producer's subsequent write of `v` into the returned slot: advance
`curr`/`next`, save currently-consumed buffers, notify consumers if
`curr` is valid, and store `v` in the slot `next` now designates.
Returns the new state together with the promise-fulfillment events. -/
def SwitchProducer (s : SwitchBufferImpl) (v : ℕ) : SwitchBufferImpl × List (ℕ × ℕ) :=
  let n := s.ring.length
  let curr := s.producer.next
  let nxt := ringInc n s.producer.next
  let saved := saveConsumed nxt s.ring s.consumers
  let notified :=
    if curr < n then notifyConsumers curr (saved.1.getD curr 0) saved.2
    else (saved.2, [])
  ({ ring := saved.1.set nxt v,
     producer := { curr := curr, next := nxt, isClosed := s.producer.isClosed },
     consumers := notified.1 }, notified.2)

/-- Outcome of a consumer switch: an immediately resolved buffer value, a
deferred (pending-promise) future, an immediately broken future, or the
assertion failure of an unknown consumer id. -/
inductive SwitchResult where
  | value (v : ℕ)
  | pending
  | broken
  | noConsumer
deriving Repr, DecidableEq

/-- Applies `f` to the first list entry satisfying `p` (the C++ code
mutates the consumer found by `Consumers::find`). -/
def updateFirst (p : Consumer → Bool) (f : Consumer → Consumer) : List Consumer → List Consumer
  | [] => []
  | c :: cs => if p c then f c :: cs else c :: updateFirst p f cs

/-- Mirrors `SwitchBufferImpl::SwitchConsumer`: if something has been
produced and the consumer is not empty, advance its ring position
(skip-to-most-recent, full-resume at `std::next(producer.next)`, or plain
increment), recompute `isEmpty` and resolve immediately with the buffer
at the new position; otherwise return a broken future if the producer is
closed, or install a pending promise. -/
def SwitchConsumer (s : SwitchBufferImpl) (parent : ℕ) (skipToMostRecent : Bool) :
    SwitchBufferImpl × SwitchResult :=
  let n := s.ring.length
  let pid := fun (x : Consumer) => x.parent == parent
  match s.consumers.find? pid with
  | none => (s, .noConsumer)
  | some c =>
    if s.producer.curr < n ∧ c.isEmpty = false then
      let newPos :=
        if skipToMostRecent then s.producer.curr
        else if c.isFull then ringInc n s.producer.next
        else ringInc n c.pos
      let newFull :=
        if skipToMostRecent then false
        else if c.isFull then false
        else c.isFull
      let upd := fun (x : Consumer) =>
        { x with pos := newPos, isFull := newFull, isEmpty := newPos == s.producer.curr }
      ({ s with consumers := updateFirst pid upd s.consumers },
       .value (s.ring.getD newPos 0))
    else
      if s.producer.isClosed then (s, .broken)
      else
        let upd := fun (x : Consumer) => { x with promise := true }
        ({ s with consumers := updateFirst pid upd s.consumers }, .pending)

/-- External operations on one core: register/unregister a consumer,
a producer switch together with the value written afterwards, a consumer
switch, and closing the producer. -/
inductive Op where
  | register (parent : ℕ)
  | unregister (parent : ℕ)
  | produce (v : ℕ)
  | consume (parent : ℕ) (skipToMostRecent : Bool)
  | close
deriving Repr, DecidableEq

/-- One operation applied to a state, returning the observation events it
produces: a fulfilled promise or an immediately resolved consumer switch
yields `(parent, value)`. -/
def stepOp (s : SwitchBufferImpl) : Op → SwitchBufferImpl × List (ℕ × ℕ)
  | .register p => (CreateConsumer s p, [])
  | .unregister p => (CloseConsumer s p, [])
  | .produce v => SwitchProducer s v
  | .consume p sk =>
    match SwitchConsumer s p sk with
    | (s1, .value v) => (s1, [(p, v)])
    | (s1, _) => (s1, [])
  | .close => (CloseProducer s, [])

/-- Runs a list of operations, accumulating the observation log. -/
def runOps : SwitchBufferImpl → List Op → SwitchBufferImpl × List (ℕ × ℕ)
  | s, [] => (s, [])
  | s, op :: ops =>
    let first := stepOp s op
    let rest := runOps first.1 ops
    (rest.1, first.2 ++ rest.2)

/-- The state after running `ops` from `s`. -/
def runState (s : SwitchBufferImpl) (ops : List Op) : SwitchBufferImpl := (runOps s ops).1

/-- The observation log produced by running `ops` from `s`. -/
def runLog (s : SwitchBufferImpl) (ops : List Op) : List (ℕ × ℕ) := (runOps s ops).2

/-- The values observed by consumer `parent` in a log, in order. -/
def obsOf (parent : ℕ) (log : List (ℕ × ℕ)) : List ℕ :=
  (log.filter fun e => e.1 == parent).map Prod.snd

/-- The values handed to the producer's switches, in order. -/
def producedVals (ops : List Op) : List ℕ :=
  ops.filterMap fun op => match op with | .produce v => some v | _ => none

/-- The finalized values of a produced-value list: the last produced value
still sits in the in-production slot, so all but the last are finalized. -/
def finOf (vs : List ℕ) : List ℕ := vs.take (vs.length - 1)

/-- The finalized values after running `ops`. -/
def finalizedVals (ops : List Op) : List ℕ := finOf (producedVals ops)

/-- True when the operation list contains no producer switch. -/
def produceFree (ops : List Op) : Bool :=
  ops.all fun op => match op with | .produce _ => false | _ => true

/-- Trace discipline for one consumer `parent` on a core of capacity `n`,
checked by simulation. `t` counts producer switches done so far, `r`
counts values observed by `parent` so far. The checker demands that
`parent` is never re-registered or unregistered, that it never uses
skip-to-most-recent, and that right after every producer switch the
producer is at most `n` switches ahead of the consumer's observations. -/
def traceOk (parent n : ℕ) : SwitchBufferImpl → ℕ → ℕ → List Op → Bool
  | _, _, _, [] => true
  | s, t, r, op :: ops =>
    let structOk : Bool :=
      match op with
      | .register q => !(q == parent)
      | .unregister q => !(q == parent)
      | .consume q sk => !(q == parent) || !sk
      | _ => true
    let stepped := stepOp s op
    let r1 := r + (stepped.2.filter fun e => e.1 == parent).length
    let t1 := t + (match op with | .produce _ => 1 | _ => 0)
    let lagOk : Bool := match op with | .produce _ => decide (t1 ≤ r1 + n) | _ => true
    structOk && lagOk && traceOk parent n stepped.1 t1 r1 ops

/-- A disciplined run: consumer `parent` registered on a fresh core before
any producer switch, then `ops`, subject to `traceOk`. -/
def Disciplined (parent n : ℕ) (ops : List Op) : Bool :=
  traceOk parent n (CreateConsumer (initImpl n) parent) 0 0 ops

/-- Runs `ops` on a fresh core of capacity `n` with consumer `parent`
registered first. -/
def runFrom (parent n : ℕ) (ops : List Op) : SwitchBufferImpl × List (ℕ × ℕ) :=
  runOps (CreateConsumer (initImpl n) parent) ops

/-- Ghost model of the ring contents: starting from default-constructed
slots, the k-th produced value (1-based) is written into slot `k % n`. -/
def writesRingAux (n : ℕ) : List ℕ → ℕ → List ℕ → List ℕ
  | ring, _, [] => ring
  | ring, t, v :: vs => writesRingAux n (ring.set ((t + 1) % n) v) (t + 1) vs

/-- The ring contents after producing the value list `vs` on capacity `n`. -/
def writesRing (n : ℕ) (vs : List ℕ) : List ℕ :=
  writesRingAux n (List.replicate n 0) 0 vs

/-- The producer's `curr` position after `t` producer switches: invalid
until the second switch, then `(t - 1) % n`. -/
def currOf (n t : ℕ) : ℕ := if t ≤ 1 then n else (t - 1) % n

/-- The producer's `next` position after `t` producer switches: invalid
before the first switch, then `t % n`. -/
def nextOf (n t : ℕ) : ℕ := if t = 0 then n else t % n

/-- Consumer-side invariant of a disciplined trace, relating the concrete
consumer record to the ghost counts `t` (producer switches) and `r`
(values observed so far). Before its first observation the consumer sits
at the invalid position; afterwards its position is `r % n`, it is empty
exactly when it has observed every finalized value, and the full flag
marks a lag of exactly `n` (or, on capacity 2 only, the state right after
a promise fulfillment re-rescued the in-consumption slot). -/
def CInv (n t r : ℕ) (closed : Bool) (c : Consumer) : Prop :=
  (c.promise = true → c.isEmpty = true ∧ closed = false) ∧
  ((r = 0 ∧ c.pos = n ∧ c.isFull = false ∧ (c.isEmpty = true ↔ t ≤ 1) ∧ t ≤ n) ∨
   (1 ≤ r ∧ r + 1 ≤ t ∧ c.pos = r % n ∧ (c.isEmpty = true ↔ r + 1 = t) ∧
    (c.isFull = true → (c.isEmpty = true → r + 1 = t ∧ n = 2) ∧
                       (c.isEmpty = false → t = r + n)) ∧
    (c.isFull = false → t < r + n)))

/-- Full invariant of a disciplined trace: the producer cursors and the
ring are determined by the produced values `vs`, and the consumer
`parent` occurs exactly once in the consumer list, satisfying `CInv`. -/
def TraceInv (parent n : ℕ) (vs : List ℕ) (r : ℕ) (s : SwitchBufferImpl) : Prop :=
  2 ≤ n ∧
  s.ring = writesRing n vs ∧
  s.producer.curr = currOf n vs.length ∧
  s.producer.next = nextOf n vs.length ∧
  ∃ pre c post,
    s.consumers = pre ++ c :: post ∧
    (∀ x ∈ pre, (x.parent == parent) = false) ∧
    (∀ x ∈ post, (x.parent == parent) = false) ∧
    c.parent = parent ∧
    CInv n vs.length r s.producer.isClosed c

/-- The spec sentence of claim C6 as a predicate on one consumer record:
the consumer is empty exactly when its position equals the producer's
`curr`. -/
def emptyIffAtCurr (s : SwitchBufferImpl) (c : Consumer) : Prop :=
  c.isEmpty = true ↔ c.pos = s.producer.curr

/-- The operation list of the claim C4 counterexample: a consumer lags
four producer switches behind on a capacity-2 ring before the producer
closes. -/
def c4CexOps : List Op :=
  [.register 0, .produce 10, .produce 20, .produce 30, .produce 40, .close,
   .consume 0 false]

/-- The new ring position taken by a non-deferred consumer switch of a
consumer in state `c`: skip to `curr`, or resume after `next` when full,
or advance one slot. -/
def consumeNewPos (s : SwitchBufferImpl) (c : Consumer) (sk : Bool) : ℕ :=
  if sk then s.producer.curr
  else if c.isFull then ringInc s.ring.length s.producer.next
  else ringInc s.ring.length c.pos

/-- The consumer-record update applied by a non-deferred consumer switch
when the switched consumer was found in state `c`. -/
def consumeRead (s : SwitchBufferImpl) (c : Consumer) (sk : Bool) (x : Consumer) : Consumer :=
  { x with
    pos := consumeNewPos s c sk,
    isFull := if sk then false else if c.isFull then false else c.isFull,
    isEmpty := consumeNewPos s c sk == s.producer.curr }

/-- The consumer-record update applied by a deferred consumer switch on
an open producer: install a pending promise. -/
def consumeWait (x : Consumer) : Consumer := { x with promise := true }

/-- The net effect of one producer switch on a single consumer record
(`sanct` stands for the unobservable sanctuary contents after the
exchange): first the save-consumed step, then — if something had been
produced before — promise fulfillment or the `isEmpty` reset. -/
def prodStepConsumer (s : SwitchBufferImpl) (c : Consumer) (sanct : ℕ) : Consumer :=
  let c2 := if ringInc s.ring.length s.producer.next == c.pos
            then { c with isFull := true, sanctuary := sanct } else c
  if s.producer.next < s.ring.length then
    (if c2.promise then { c2 with pos := s.producer.next, promise := false }
     else { c2 with isEmpty := false })
  else c2

/-! ## Claim C2 -/

/-- C2: with capacity 2 and a consumer registered from the start, after
the producer switches twice writing `a` then `b`, the consumer's first
non-skip switch resolves immediately with the oldest unread value `a`,
not `b`. -/
theorem c2_first_read_is_oldest (a b : ℕ) :
    (SwitchConsumer (runState (initImpl 2) [.register 0, .produce a, .produce b]) 0 false).2 =
      .value a := by
  simp [runState, runOps, stepOp, SwitchProducer, SwitchConsumer, CreateConsumer, initImpl,
    saveConsumed, notifyConsumers, updateFirst, ringInc]

/-! ## Claim C3 -/

/-- C3: with capacity 3 and one registered consumer, alternating a
producer switch with a consumer switch (each read taken after the write
that finalizes the previous value) for the values 0,1,2,3,4 delivers
exactly 0,1,2,3,4 in order — no repeats, no omissions — even though ring
slots are reused from the fourth write on. -/
theorem c3_in_order_delivery :
    obsOf 0 (runLog (initImpl 3) [.register 0, .produce 0,
      .produce 1, .consume 0 false, .produce 2, .consume 0 false,
      .produce 3, .consume 0 false, .produce 4, .consume 0 false,
      .produce 99, .consume 0 false]) = [0, 1, 2, 3, 4] := by decide

/-! ## Claim C8 -/

/-- C8: constructing a core with capacity strictly less than 2 fails with
a configuration error, and construction with capacity at least 2
succeeds (capacity check as in the `part_005` constructor revision). -/
theorem c8_capacity_validation (cap : ℕ) :
    (cap < 2 → mkSwitchBufferImpl cap = .error .configurationError) ∧
    (2 ≤ cap → mkSwitchBufferImpl cap = .ok (initImpl cap)) := by
  constructor <;> intro h <;> simp [mkSwitchBufferImpl] <;> omega

/-- Witness for C8 at capacities 1 and 2. -/
theorem c8_capacity_validation_witness :
    mkSwitchBufferImpl 1 = .error .configurationError ∧
      mkSwitchBufferImpl 2 = .ok (initImpl 2) :=
  ⟨(c8_capacity_validation 1).1 (by decide), (c8_capacity_validation 2).2 (by decide)⟩

/-! ## Claim C10 -/

/-- C10: when the consumer registered under `parent` is empty, the
skip-to-most-recent flag is ignored: both switch variants return the same
result and produce the same post-state (a pending promise if the
producer is open, a broken result if it is closed). -/
theorem c10_skip_ignored_when_empty (s : SwitchBufferImpl) (parent : ℕ) (c : Consumer)
    (hf : s.consumers.find? (fun x => x.parent == parent) = some c)
    (he : c.isEmpty = true) :
    SwitchConsumer s parent true = SwitchConsumer s parent false := by
  simp only [SwitchConsumer, hf]
  simp [he]

/-- Witness for C10 on a freshly registered consumer. -/
theorem c10_skip_ignored_when_empty_witness :
    SwitchConsumer (runState (initImpl 2) [.register 0]) 0 true =
      SwitchConsumer (runState (initImpl 2) [.register 0]) 0 false :=
  c10_skip_ignored_when_empty _ 0 ⟨0, 2, false, true, 0, false⟩ (by decide) (by decide)

/-! ## Claim C1, counterexample -/

/-- C1 fails as stated: on a capacity-2 core, a consumer that lags three
producer switches behind observes 30 before 20 — a reordering — and never
observes 10, although it always switches with `skipToMostRecent = false`.
The produced values are 10, 20, 30 but the observation sequence [30, 20]
is not even a subsequence of them. -/
theorem c1_counterexample :
    obsOf 0 (runLog (initImpl 2) [.register 0, .produce 10, .produce 20,
        .produce 30, .consume 0 false, .consume 0 false]) = [30, 20] ∧
    producedVals [.register 0, .produce 10, .produce 20, .produce 30,
        .consume 0 false, .consume 0 false] = [10, 20, 30] ∧
    ¬ [30, 20].Sublist [10, 20, 30] := by
  refine ⟨by decide, by decide, by decide⟩

/-! ## Claim C4, counterexample -/

/-- C4 fails as stated: after the producer writes 10, 20, 30, 40 on a
capacity-2 core and closes, the lagging consumer's draining switches
deliver only 30 — not the entire remaining backlog 10, 20, 30 — before
the next switch comes back broken. -/
theorem c4_counterexample :
    obsOf 0 (runLog (initImpl 2) c4CexOps) = [30] ∧
    finalizedVals c4CexOps = [10, 20, 30] ∧
    (SwitchConsumer (runState (initImpl 2) c4CexOps) 0 false).2 = .broken ∧
    [30] ≠ [10, 20, 30] := by
  refine ⟨by decide, by decide, by decide, by decide⟩

/-! ## Claim C5, counterexample -/

/-- C5 fails as stated for every reachable state: in the reachable state
of a fresh core with one registered consumer, a skip-to-most-recent
switch does not yield any value — nothing has been finalized, so it
installs a pending promise instead. -/
theorem c5_counterexample :
    (SwitchConsumer (runState (initImpl 2) [.register 0]) 0 true).2 = .pending := by
  decide

/-! ## Claim C6, counterexample -/

/-- C6 fails as stated: after two producer switches a consumer registered
late is caught up (`isEmpty = true`) while its position is still the
invalid index 2, different from the producer's `curr` position 1. -/
theorem c6_counterexample :
    (runState (initImpl 2) [.produce 10, .produce 20, .register 7]).consumers.find?
        (fun x => x.parent == 7) = some ⟨7, 2, false, true, 0, false⟩ ∧
    ¬ emptyIffAtCurr (runState (initImpl 2) [.produce 10, .produce 20, .register 7])
        ⟨7, 2, false, true, 0, false⟩ := by
  refine ⟨by decide, ?_⟩
  simp [emptyIffAtCurr]
  decide

/-! ## Helper lemmas about the producer-switch loops -/

/-- Reading a just-unset index of a list is unchanged. -/
theorem getD_set_ne {l : List ℕ} {i j v : ℕ} (h : i ≠ j) :
    (l.set i v).getD j 0 = l.getD j 0 := by
  simp [List.getD, List.get?_eq_getElem?, List.getElem?_set_ne h]

/-- Reading a just-set index of a list yields the written value. -/
theorem getD_set_self {l : List ℕ} {i v : ℕ} (h : i < l.length) :
    (l.set i v).getD i 0 = v := by
  simp [List.getD, List.get?_eq_getElem?, List.getElem?_set_self, h]

/-- The save-consumed loop only rewrites slot `nxt`, so a final write to
that slot erases all its ring effects. -/
theorem saveConsumed_fst_set (nxt v : ℕ) (ring : List ℕ) (l : List Consumer) :
    ((saveConsumed nxt ring l).1).set nxt v = ring.set nxt v := by
  induction l generalizing ring with
  | nil => rfl
  | cons c cs ih =>
    by_cases h : (nxt == c.pos) = true
    · simp only [saveConsumed, h, if_true, ih, List.set_set]
    · simp only [saveConsumed, h, if_false, ih, Bool.false_eq_true]

/-- The save-consumed loop preserves the ring length. -/
theorem saveConsumed_fst_length (nxt : ℕ) (ring : List ℕ) (l : List Consumer) :
    (saveConsumed nxt ring l).1.length = ring.length := by
  induction l generalizing ring with
  | nil => rfl
  | cons c cs ih =>
    by_cases h : (nxt == c.pos) = true
    · simp only [saveConsumed, h, if_true, ih, List.length_set]
    · simp only [saveConsumed, h, if_false, ih, Bool.false_eq_true]

/-- Away from slot `nxt` the save-consumed loop leaves the ring alone. -/
theorem saveConsumed_fst_getD (nxt j : ℕ) (ring : List ℕ) (l : List Consumer)
    (hj : j ≠ nxt) : (saveConsumed nxt ring l).1.getD j 0 = ring.getD j 0 := by
  induction l generalizing ring with
  | nil => rfl
  | cons c cs ih =>
    by_cases h : (nxt == c.pos) = true
    · simp only [saveConsumed, h, if_true, ih]
      exact getD_set_ne fun hc => hj hc.symm
    · simp only [saveConsumed, h, if_false, ih, Bool.false_eq_true]

/-- When no consumer sits at slot `nxt`, the save-consumed loop is the
identity. -/
theorem saveConsumed_no_match (nxt : ℕ) (ring : List ℕ) (l : List Consumer)
    (h : ∀ c ∈ l, (nxt == c.pos) = false) : saveConsumed nxt ring l = (ring, l) := by
  induction l with
  | nil => rfl
  | cons c cs ih =>
    have hc := h c (by simp)
    simp only [saveConsumed, hc, Bool.false_eq_true, if_false]
    rw [ih fun x hx => h x (by simp [hx])]

/-- Every element of `updateFirst p f l` is an element of `l` or the
image under `f` of one. -/
theorem updateFirst_mem {p : Consumer → Bool} {f : Consumer → Consumer} {l : List Consumer}
    {x : Consumer} (hx : x ∈ updateFirst p f l) : ∃ y ∈ l, x = y ∨ x = f y := by
  induction l with
  | nil => cases hx
  | cons c cs ih =>
    by_cases h : p c = true
    · simp only [updateFirst, h, if_true, List.mem_cons] at hx
      rcases hx with h1 | h1
      · exact ⟨c, by simp, Or.inr h1⟩
      · exact ⟨x, by simp [h1], Or.inl rfl⟩
    · simp only [updateFirst, h, if_false] at hx
      rcases List.mem_cons.mp hx with h1 | h1
      · exact ⟨c, by simp, Or.inl h1⟩
      · rcases ih h1 with ⟨y, hy, hxy⟩
        exact ⟨y, by simp [hy], hxy⟩

/-! ## Claim C7 -/

/-- C7: the producer's switch is a total function — it always yields the
freshly designated, valid write slot, which afterwards holds the written
value — and neither the resulting producer cursors nor the resulting
ring depend on the registered consumers or their state in any way. -/
theorem c7_producer_switch_total_and_independent
    (v : ℕ) (ring : List ℕ) (p : Producer) (cons1 cons2 : List Consumer)
    (hn : 1 ≤ ring.length) :
    (SwitchProducer ⟨ring, p, cons1⟩ v).1.producer =
        ⟨p.next, ringInc ring.length p.next, p.isClosed⟩ ∧
    (SwitchProducer ⟨ring, p, cons1⟩ v).1.ring =
        (SwitchProducer ⟨ring, p, cons2⟩ v).1.ring ∧
    (SwitchProducer ⟨ring, p, cons1⟩ v).1.ring.getD
        (SwitchProducer ⟨ring, p, cons1⟩ v).1.producer.next 0 = v := by
  refine ⟨rfl, ?_, ?_⟩
  · show ((saveConsumed _ _ cons1).1).set _ v = ((saveConsumed _ _ cons2).1).set _ v
    rw [saveConsumed_fst_set, saveConsumed_fst_set]
  · show (((saveConsumed _ _ cons1).1).set (ringInc ring.length p.next) v).getD
        (ringInc ring.length p.next) 0 = v
    rw [saveConsumed_fst_set]
    have hlt : ringInc ring.length p.next < ring.length :=
      Nat.mod_lt _ (Nat.lt_of_lt_of_le Nat.zero_lt_one hn)
    exact getD_set_self hlt

/-- Witness for C7 on a capacity-2 core with two different consumer
lists. -/
theorem c7_producer_switch_total_and_independent_witness :
    (SwitchProducer ⟨[0, 0], ⟨2, 2, false⟩, []⟩ 5).1.producer = ⟨2, 1, false⟩ ∧
    (SwitchProducer ⟨[0, 0], ⟨2, 2, false⟩, []⟩ 5).1.ring =
      (SwitchProducer ⟨[0, 0], ⟨2, 2, false⟩, [⟨0, 2, false, true, 0, true⟩]⟩ 5).1.ring ∧
    (SwitchProducer ⟨[0, 0], ⟨2, 2, false⟩, []⟩ 5).1.ring.getD
      (SwitchProducer ⟨[0, 0], ⟨2, 2, false⟩, []⟩ 5).1.producer.next 0 = 5 :=
  c7_producer_switch_total_and_independent 5 [0, 0] ⟨2, 2, false⟩ []
    [⟨0, 2, false, true, 0, true⟩] (by decide)

/-! ## Shape lemmas for the consumer switch and the step function -/

/-- Unfolding `SwitchConsumer` in the immediate branch: producer data has
been finalized and the consumer is not empty. -/
theorem SwitchConsumer_immediate (s : SwitchBufferImpl) (parent : ℕ) (sk : Bool)
    (c : Consumer) (hf : s.consumers.find? (fun x => x.parent == parent) = some c)
    (hguard : s.producer.curr < s.ring.length ∧ c.isEmpty = false) :
    SwitchConsumer s parent sk =
      ({ s with consumers := updateFirst (fun x => x.parent == parent) (consumeRead s c sk) s.consumers },
       .value (s.ring.getD (consumeNewPos s c sk) 0)) := by
  simp only [SwitchConsumer, hf]
  rw [if_pos hguard]
  rfl

/-- Unfolding `SwitchConsumer` in the deferred branch: nothing consumable,
so the result is broken (closed producer) or a fresh pending promise. -/
theorem SwitchConsumer_deferred (s : SwitchBufferImpl) (parent : ℕ) (sk : Bool)
    (c : Consumer) (hf : s.consumers.find? (fun x => x.parent == parent) = some c)
    (hguard : ¬ (s.producer.curr < s.ring.length ∧ c.isEmpty = false)) :
    SwitchConsumer s parent sk =
      (if s.producer.isClosed = true then (s, .broken)
       else ({ s with consumers := updateFirst (fun x => x.parent == parent) consumeWait s.consumers }, .pending)) := by
  simp only [SwitchConsumer, hf]
  rw [if_neg hguard]
  by_cases hcl : s.producer.isClosed = true
  · rw [if_pos hcl, if_pos hcl]
  · rw [if_neg hcl, if_neg hcl]
    rfl

/-- Unfolding `SwitchConsumer` when the id is not registered. -/
theorem SwitchConsumer_none (s : SwitchBufferImpl) (parent : ℕ) (sk : Bool)
    (hf : s.consumers.find? (fun x => x.parent == parent) = none) :
    SwitchConsumer s parent sk = (s, .noConsumer) := by
  simp only [SwitchConsumer, hf]

/-- A consumer switch never touches the producer state. -/
theorem SwitchConsumer_producer (s : SwitchBufferImpl) (parent : ℕ) (sk : Bool) :
    (SwitchConsumer s parent sk).1.producer = s.producer := by
  cases hf : s.consumers.find? (fun x => x.parent == parent) with
  | none => rw [SwitchConsumer_none s parent sk hf]
  | some c =>
    by_cases hguard : s.producer.curr < s.ring.length ∧ c.isEmpty = false
    · rw [SwitchConsumer_immediate s parent sk c hf hguard]
    · rw [SwitchConsumer_deferred s parent sk c hf hguard]
      by_cases hcl : s.producer.isClosed = true
      · rw [if_pos hcl]
      · rw [if_neg hcl]

/-- A consumer switch never touches the ring. -/
theorem SwitchConsumer_ring (s : SwitchBufferImpl) (parent : ℕ) (sk : Bool) :
    (SwitchConsumer s parent sk).1.ring = s.ring := by
  cases hf : s.consumers.find? (fun x => x.parent == parent) with
  | none => rw [SwitchConsumer_none s parent sk hf]
  | some c =>
    by_cases hguard : s.producer.curr < s.ring.length ∧ c.isEmpty = false
    · rw [SwitchConsumer_immediate s parent sk c hf hguard]
    · rw [SwitchConsumer_deferred s parent sk c hf hguard]
      by_cases hcl : s.producer.isClosed = true
      · rw [if_pos hcl]
      · rw [if_neg hcl]

/-- The state reached by a consume step is the state of the consumer
switch, whatever the result was. -/
theorem stepOp_consume_fst (s : SwitchBufferImpl) (q : ℕ) (sk : Bool) :
    (stepOp s (.consume q sk)).1 = (SwitchConsumer s q sk).1 := by
  unfold stepOp
  rcases h : SwitchConsumer s q sk with ⟨s1, r⟩
  cases r <;> simp [h]

/-- Running a cons is stepping then running the tail. -/
theorem runState_cons (s : SwitchBufferImpl) (op : Op) (ops : List Op) :
    runState s (op :: ops) = runState (stepOp s op).1 ops := rfl

/-- The log of a cons is the step events followed by the tail log. -/
theorem runLog_cons (s : SwitchBufferImpl) (op : Op) (ops : List Op) :
    runLog s (op :: ops) = (stepOp s op).2 ++ runLog (stepOp s op).1 ops := rfl

/-! ## Claim C9 -/

/-- Splitting a produce-free operation list. -/
theorem produceFree_cons {op : Op} {ops : List Op} (h : produceFree (op :: ops) = true) :
    (∀ v, op ≠ .produce v) ∧ produceFree ops = true := by
  unfold produceFree at h
  rw [List.all_cons, Bool.and_eq_true] at h
  refine ⟨?_, h.2⟩
  intro v hv
  subst hv
  simpa using h.1

/-- Before the first producer switch both producer iterators and every
consumer position sit at the invalid index, whatever else happened. -/
theorem produceFree_run_inv (n : ℕ) :
    ∀ (ops : List Op) (s : SwitchBufferImpl),
      produceFree ops = true →
      s.ring.length = n → s.producer.curr = n → s.producer.next = n →
      (∀ c ∈ s.consumers, c.pos = n) →
      (runState s ops).ring.length = n ∧ (runState s ops).producer.curr = n ∧
        (runState s ops).producer.next = n ∧ ∀ c ∈ (runState s ops).consumers, c.pos = n := by
  intro ops
  induction ops with
  | nil => exact fun s _ h1 h2 h3 h4 => ⟨h1, h2, h3, h4⟩
  | cons op ops ih =>
    intro s hpf h1 h2 h3 h4
    obtain ⟨hop, hpf2⟩ := produceFree_cons hpf
    rw [runState_cons]
    have hstep : (stepOp s op).1.ring.length = n ∧ (stepOp s op).1.producer.curr = n ∧
        (stepOp s op).1.producer.next = n ∧ ∀ c ∈ (stepOp s op).1.consumers, c.pos = n := by
      cases op with
      | produce v => exact absurd rfl (hop v)
      | register q =>
        refine ⟨h1, h2, h3, ?_⟩
        intro x hx
        rcases List.mem_append.mp hx with hx1 | hx1
        · exact h4 x hx1
        · rcases List.mem_singleton.mp hx1 with rfl
          exact h1
      | unregister q =>
        refine ⟨h1, h2, h3, ?_⟩
        intro x hx
        exact h4 x ((List.eraseP_sublist _).subset hx)
      | close =>
        refine ⟨h1, h2, h3, ?_⟩
        intro x hx
        rcases List.mem_map.mp hx with ⟨y, hy, rfl⟩
        simpa using h4 y hy
      | consume q sk =>
        rw [stepOp_consume_fst]
        cases hf : s.consumers.find? (fun x => x.parent == q) with
        | none =>
          rw [SwitchConsumer_none s q sk hf]
          exact ⟨h1, h2, h3, h4⟩
        | some c =>
          have hguard : ¬ (s.producer.curr < s.ring.length ∧ c.isEmpty = false) := by
            rintro ⟨hlt, _⟩
            rw [h1, h2] at hlt
            exact Nat.lt_irrefl _ hlt
          rw [SwitchConsumer_deferred s q sk c hf hguard]
          by_cases hcl : s.producer.isClosed = true
          · rw [if_pos hcl]
            exact ⟨h1, h2, h3, h4⟩
          · rw [if_neg hcl]
            refine ⟨h1, h2, h3, ?_⟩
            intro x hx
            rcases updateFirst_mem hx with ⟨y, hy, h | h⟩
            · subst h
              exact h4 _ hy
            · subst h
              simpa [consumeWait] using h4 _ hy
    exact ih _ hpf2 hstep.1 hstep.2.1 hstep.2.2.1 hstep.2.2.2

/-- The very first producer switch on a core: it only designates slot 1
as the write target and fills it; `curr` stays invalid, no promise is
resolved, and every consumer record is left untouched. -/
theorem SwitchProducer_first (s : SwitchBufferImpl) (n v : ℕ) (hn : 2 ≤ n)
    (h1 : s.ring.length = n) (h2 : s.producer.curr = n) (h3 : s.producer.next = n)
    (h4 : ∀ c ∈ s.consumers, c.pos = n) :
    SwitchProducer s v =
      ({ ring := s.ring.set 1 v,
         producer := { curr := s.producer.curr, next := 1, isClosed := s.producer.isClosed },
         consumers := s.consumers }, []) := by
  have hinc : ringInc s.ring.length s.producer.next = 1 := by
    rw [h1, h3]
    unfold ringInc
    have hmod : (n + 1) % n = 1 % n := Nat.add_mod_left n 1
    rw [hmod, Nat.mod_eq_of_lt (by omega)]
  have hsave : saveConsumed 1 s.ring s.consumers = (s.ring, s.consumers) := by
    apply saveConsumed_no_match
    intro c hc
    rw [h4 c hc]
    exact beq_eq_false_iff_ne.mpr (by omega)
  have hcond : ¬ (s.producer.next < s.ring.length) := by
    rw [h3, h1]
    exact Nat.lt_irrefl n
  simp only [SwitchProducer, hinc, hsave, if_neg hcond]
  rw [h2, h3]

/-- C9: in every reachable state with no producer switch performed yet,
the first producer switch resolves no pending notifier (its event list is
empty) and leaves every registered consumer's record — position, flags,
sanctuary and pending promise — unchanged; it only establishes the write
target, leaving `curr` untouched. -/
theorem c9_first_switch_frame (n v : ℕ) (ops : List Op)
    (hn : 2 ≤ n) (hops : produceFree ops = true) :
    (SwitchProducer (runState (initImpl n) ops) v).1.consumers =
        (runState (initImpl n) ops).consumers ∧
    (SwitchProducer (runState (initImpl n) ops) v).2 = [] ∧
    (SwitchProducer (runState (initImpl n) ops) v).1.producer.curr =
        (runState (initImpl n) ops).producer.curr ∧
    (SwitchProducer (runState (initImpl n) ops) v).1.producer.next = 1 := by
  obtain ⟨h1, h2, h3, h4⟩ := produceFree_run_inv n ops (initImpl n) hops
    (by simp [initImpl]) rfl rfl (by simp [initImpl])
  rw [SwitchProducer_first (runState (initImpl n) ops) n v hn h1 h2 h3 h4]
  exact ⟨rfl, rfl, rfl, rfl⟩

/-- Witness for C9: a capacity-2 core on which a consumer registered and
issued a (still pending) request before the first producer switch. -/
theorem c9_first_switch_frame_witness :
    (SwitchProducer (runState (initImpl 2) [.register 0, .consume 0 false]) 7).1.consumers =
        (runState (initImpl 2) [.register 0, .consume 0 false]).consumers ∧
    (SwitchProducer (runState (initImpl 2) [.register 0, .consume 0 false]) 7).2 = [] ∧
    (SwitchProducer (runState (initImpl 2) [.register 0, .consume 0 false]) 7).1.producer.curr =
        (runState (initImpl 2) [.register 0, .consume 0 false]).producer.curr ∧
    (SwitchProducer (runState (initImpl 2) [.register 0, .consume 0 false]) 7).1.producer.next = 1 :=
  c9_first_switch_frame 2 7 [.register 0, .consume 0 false] (by decide) (by decide)

/-! ## Claim C5, amended -/

/-- The save-consumed loop preserves every consumer's parent, position,
emptiness and promise (only `isFull` and the sanctuary may change). -/
theorem saveConsumed_snd_mem {nxt : ℕ} {ring : List ℕ} {l : List Consumer} {x : Consumer}
    (hx : x ∈ (saveConsumed nxt ring l).2) :
    ∃ y ∈ l, x.parent = y.parent ∧ x.pos = y.pos ∧ x.isEmpty = y.isEmpty ∧
      x.promise = y.promise := by
  induction l generalizing ring with
  | nil => simp [saveConsumed] at hx
  | cons c cs ih =>
    by_cases h : (nxt == c.pos) = true
    · simp only [saveConsumed, h, if_true, List.mem_cons] at hx
      rcases hx with hxy | hx
      · exact ⟨c, by simp, by rw [hxy], by rw [hxy], by rw [hxy], by rw [hxy]⟩
      · rcases ih hx with ⟨y, hy, hh⟩
        exact ⟨y, by simp [hy], hh⟩
    · simp only [saveConsumed, h, if_false, List.mem_cons, Bool.false_eq_true] at hx
      rcases hx with hxy | hx
      · exact ⟨c, by simp, by rw [hxy], by rw [hxy], by rw [hxy], by rw [hxy]⟩
      · rcases ih hx with ⟨y, hy, hh⟩
        exact ⟨y, by simp [hy], hh⟩

/-- A produce step is exactly a producer switch. -/
theorem stepOp_produce (s : SwitchBufferImpl) (v : ℕ) :
    stepOp s (.produce v) = SwitchProducer s v := rfl

/-- The producer substate after a producer switch. -/
theorem SwitchProducer_producerState (s : SwitchBufferImpl) (v : ℕ) :
    (SwitchProducer s v).1.producer =
      ⟨s.producer.next, ringInc s.ring.length s.producer.next, s.producer.isClosed⟩ := rfl

/-- A producer switch preserves the ring length. -/
theorem SwitchProducer_ring_length (s : SwitchBufferImpl) (v : ℕ) :
    (SwitchProducer s v).1.ring.length = s.ring.length := by
  simp only [SwitchProducer, List.length_set, saveConsumed_fst_length]

/-- Reachable-state invariant: a non-empty consumer certifies that the
producer's `curr` is a valid ring position, and a valid `curr` certifies
a valid `next`. -/
theorem stepOp_curr_valid_pres (s : SwitchBufferImpl) (op : Op)
    (h1 : ∀ c ∈ s.consumers, c.isEmpty = false → s.producer.curr < s.ring.length)
    (h2 : s.producer.curr < s.ring.length → s.producer.next < s.ring.length) :
    (∀ c ∈ (stepOp s op).1.consumers, c.isEmpty = false →
        (stepOp s op).1.producer.curr < (stepOp s op).1.ring.length) ∧
    ((stepOp s op).1.producer.curr < (stepOp s op).1.ring.length →
        (stepOp s op).1.producer.next < (stepOp s op).1.ring.length) := by
  cases op with
  | register q =>
    refine ⟨?_, h2⟩
    intro x hx hxe
    rcases List.mem_append.mp hx with hx1 | hx1
    · exact h1 x hx1 hxe
    · rcases List.mem_singleton.mp hx1 with rfl
      simp at hxe
  | unregister q =>
    refine ⟨?_, h2⟩
    intro x hx hxe
    exact h1 x ((List.eraseP_sublist _).subset hx) hxe
  | close =>
    refine ⟨?_, h2⟩
    intro x hx hxe
    rcases List.mem_map.mp hx with ⟨y, hy, rfl⟩
    simp only at hxe
    exact h1 y hy hxe
  | consume q sk =>
    rw [stepOp_consume_fst]
    rw [SwitchConsumer_producer, SwitchConsumer_ring]
    refine ⟨?_, h2⟩
    intro x hx hxe
    cases hf : s.consumers.find? (fun c => c.parent == q) with
    | none =>
      rw [SwitchConsumer_none s q sk hf] at hx
      exact h1 x hx hxe
    | some c =>
      by_cases hguard : s.producer.curr < s.ring.length ∧ c.isEmpty = false
      · exact hguard.1
      · rw [SwitchConsumer_deferred s q sk c hf hguard] at hx
        by_cases hcl : s.producer.isClosed = true
        · rw [if_pos hcl] at hx
          exact h1 x hx hxe
        · rw [if_neg hcl] at hx
          simp only at hx
          rcases updateFirst_mem hx with ⟨y, hy, h | h⟩
          · subst h
            exact h1 _ hy hxe
          · subst h
            simp only [consumeWait] at hxe
            exact h1 _ hy hxe
  | produce v =>
    rw [stepOp_produce]
    constructor
    · intro x hx hxe
      rw [SwitchProducer_producerState, SwitchProducer_ring_length]
      by_cases hc : s.producer.next < s.ring.length
      · exact hc
      · exfalso
        have hcons : (SwitchProducer s v).1.consumers =
            (saveConsumed (ringInc s.ring.length s.producer.next) s.ring s.consumers).2 := by
          simp only [SwitchProducer, if_neg hc]
        rw [hcons] at hx
        rcases saveConsumed_snd_mem hx with ⟨y, hy, _, _, hye, _⟩
        rw [hye] at hxe
        exact hc (h2 (h1 y hy hxe))
    · intro hcur
      rw [SwitchProducer_producerState, SwitchProducer_ring_length] at hcur ⊢
      simp only
      unfold ringInc
      exact Nat.mod_lt _ (Nat.lt_of_le_of_lt (Nat.zero_le _) hcur)

/-- The curr-validity invariant holds in every reachable state. -/
theorem run_curr_valid (n : ℕ) (ops : List Op) :
    (∀ c ∈ (runState (initImpl n) ops).consumers, c.isEmpty = false →
        (runState (initImpl n) ops).producer.curr < (runState (initImpl n) ops).ring.length) ∧
    ((runState (initImpl n) ops).producer.curr < (runState (initImpl n) ops).ring.length →
        (runState (initImpl n) ops).producer.next < (runState (initImpl n) ops).ring.length) := by
  suffices h : ∀ (ops : List Op) (s : SwitchBufferImpl),
      (∀ c ∈ s.consumers, c.isEmpty = false → s.producer.curr < s.ring.length) →
      (s.producer.curr < s.ring.length → s.producer.next < s.ring.length) →
      (∀ c ∈ (runState s ops).consumers, c.isEmpty = false →
          (runState s ops).producer.curr < (runState s ops).ring.length) ∧
      ((runState s ops).producer.curr < (runState s ops).ring.length →
          (runState s ops).producer.next < (runState s ops).ring.length) by
    refine h ops (initImpl n) ?_ ?_
    · intro c hc
      simp [initImpl] at hc
    · intro hc
      simp [initImpl] at hc
  intro ops
  induction ops with
  | nil => exact fun s ha hb => ⟨ha, hb⟩
  | cons op ops ih =>
    intro s ha hb
    rw [runState_cons]
    obtain ⟨ha2, hb2⟩ := stepOp_curr_valid_pres s op ha hb
    exact ih _ ha2 hb2

/-- Finding after `updateFirst` with the same predicate returns the
updated record, provided the update preserves the predicate. -/
theorem find?_updateFirst {p : Consumer → Bool} {f : Consumer → Consumer} {l : List Consumer}
    {c : Consumer} (hf : l.find? p = some c) (hp : p (f c) = true) :
    (updateFirst p f l).find? p = some (f c) := by
  induction l with
  | nil => cases hf
  | cons a as ih =>
    by_cases h : p a = true
    · rw [List.find?_cons_of_pos _ h] at hf
      injection hf with hac
      subst hac
      simp only [updateFirst]
      rw [if_pos h]
      exact List.find?_cons_of_pos _ hp
    · rw [List.find?_cons_of_neg _ (by simpa using h)] at hf
      simp only [updateFirst]
      rw [if_neg h]
      rw [List.find?_cons_of_neg _ (by simpa using h)]
      exact ih hf

/-- C5, amended: in every reachable state in which the consumer has
unread backlog (`isEmpty = false`), a skip-to-most-recent switch resolves
immediately with the buffer at the producer's `curr` cursor (the most
recently finalized value) and leaves that consumer caught up
(`isEmpty = true`). When instead the consumer is empty, no value is
yielded (see the counterexample). -/
theorem c5_amended (n : ℕ) (ops : List Op) (parent : ℕ) (c : Consumer)
    (hf : (runState (initImpl n) ops).consumers.find? (fun x => x.parent == parent) = some c)
    (hne : c.isEmpty = false) :
    (SwitchConsumer (runState (initImpl n) ops) parent true).2 =
      .value ((runState (initImpl n) ops).ring.getD
        (runState (initImpl n) ops).producer.curr 0) ∧
    ∀ c2 : Consumer,
      (SwitchConsumer (runState (initImpl n) ops) parent true).1.consumers.find?
          (fun x => x.parent == parent) = some c2 →
      c2.isEmpty = true := by
  have hmem : c ∈ (runState (initImpl n) ops).consumers := List.mem_of_find?_eq_some hf
  have hcv : (runState (initImpl n) ops).producer.curr <
      (runState (initImpl n) ops).ring.length :=
    (run_curr_valid n ops).1 c hmem hne
  have hguard : (runState (initImpl n) ops).producer.curr <
      (runState (initImpl n) ops).ring.length ∧ c.isEmpty = false := ⟨hcv, hne⟩
  rw [SwitchConsumer_immediate (runState (initImpl n) ops) parent true c hf hguard]
  constructor
  · simp [consumeNewPos]
  · intro c2 hc2
    have hp : ((consumeRead (runState (initImpl n) ops) c true c).parent == parent) = true := by
      simpa [consumeRead] using List.find?_some hf
    rw [find?_updateFirst hf hp] at hc2
    injection hc2 with hc2e
    subst hc2e
    simp [consumeRead, consumeNewPos]

/-- Witness for the amended C5 on a reachable backlogged state. -/
theorem c5_amended_witness :
    (SwitchConsumer (runState (initImpl 2) [.register 5, .produce 3, .produce 4]) 5 true).2 =
      .value ((runState (initImpl 2) [.register 5, .produce 3, .produce 4]).ring.getD
        (runState (initImpl 2) [.register 5, .produce 3, .produce 4]).producer.curr 0) ∧
    ∀ c2 : Consumer,
      (SwitchConsumer (runState (initImpl 2) [.register 5, .produce 3, .produce 4]) 5
          true).1.consumers.find? (fun x => x.parent == 5) = some c2 →
      c2.isEmpty = true :=
  c5_amended 2 [.register 5, .produce 3, .produce 4] 5 ⟨5, 2, false, false, 0, false⟩
    (by decide) (by decide)

/-! ## Ghost-ring lemmas -/

/-- The ghost write fold preserves length. -/
theorem writesRingAux_length (n : ℕ) (vs : List ℕ) :
    ∀ (ring : List ℕ) (t : ℕ), (writesRingAux n ring t vs).length = ring.length := by
  induction vs with
  | nil => intro ring t; rfl
  | cons v vs ih =>
    intro ring t
    simp only [writesRingAux, ih, List.length_set]

/-- The ghost ring has exactly the configured capacity. -/
theorem writesRing_length (n : ℕ) (vs : List ℕ) : (writesRing n vs).length = n := by
  unfold writesRing
  rw [writesRingAux_length]
  exact List.length_replicate n 0

/-- Appending one more produced value performs one more slot write. -/
theorem writesRingAux_append (n v : ℕ) (vs : List ℕ) :
    ∀ (ring : List ℕ) (t : ℕ), writesRingAux n ring t (vs ++ [v]) =
      (writesRingAux n ring t vs).set ((t + vs.length + 1) % n) v := by
  induction vs with
  | nil => intro ring t; rfl
  | cons w vs ih =>
    intro ring t
    show writesRingAux n (ring.set ((t + 1) % n) w) (t + 1) (vs ++ [v]) =
      (writesRingAux n (ring.set ((t + 1) % n) w) (t + 1) vs).set
        ((t + (w :: vs).length + 1) % n) v
    rw [ih]
    have harg : t + 1 + vs.length + 1 = t + (w :: vs).length + 1 := by
      rw [List.length_cons]
      omega
    rw [harg]

/-- The ghost ring after one more produced value. -/
theorem writesRing_append (n v : ℕ) (vs : List ℕ) :
    writesRing n (vs ++ [v]) = (writesRing n vs).set ((vs.length + 1) % n) v := by
  unfold writesRing
  rw [writesRingAux_append]
  congr 2
  omega

/-- Two numbers within one window of each other are congruent modulo `n`
only when they are equal. -/
theorem mod_eq_iff_eq_of_window {k m n : ℕ} (hkm : k ≤ m) (hw : m - k < n) :
    k % n = m % n ↔ k = m := by
  constructor
  · intro h
    have hmod : k ≡ m [MOD n] := h
    have hdvd : n ∣ m - k := (Nat.modEq_iff_dvd' hkm).mp hmod
    rcases Nat.eq_zero_or_pos (m - k) with h0 | hpos
    · omega
    · exact absurd hdvd (Nat.not_dvd_of_pos_of_lt hpos hw)
  · intro h
    rw [h]

/-- The slot `k % n` of the ghost ring holds the k-th produced value as
long as no later write has hit the same slot. -/
theorem writesRing_getD (n : ℕ) (vs : List ℕ) (k : ℕ)
    (hk1 : 1 ≤ k) (hk2 : k ≤ vs.length) (hw : vs.length < k + n) :
    (writesRing n vs).getD (k % n) 0 = vs.getD (k - 1) 0 := by
  induction vs using List.reverseRecOn with
  | nil => simp at hk2; omega
  | append_singleton vs v ih =>
    rw [List.length_append, List.length_singleton] at hk2 hw
    rw [writesRing_append]
    by_cases hk : k = vs.length + 1
    · subst hk
      have hlt : (vs.length + 1) % n < (writesRing n vs).length := by
        rw [writesRing_length]
        exact Nat.mod_lt _ (by omega)
      rw [getD_set_self hlt]
      have : vs.length + 1 - 1 = vs.length := by omega
      rw [this]
      simp [List.getD, List.get?_eq_getElem?, List.getElem?_concat_length]
    · have hk2' : k ≤ vs.length := by omega
      have hne : (vs.length + 1) % n ≠ k % n := by
        intro hcontra
        have hkb : k ≤ vs.length + 1 := by omega
        have heq := (mod_eq_iff_eq_of_window hkb (by omega)).mp hcontra.symm
        omega
      rw [getD_set_ne hne]
      rw [ih hk2' (by omega)]
      have hklt : k - 1 < vs.length := by omega
      simp [List.getD, List.get?_eq_getElem?, List.getElem?_append_left hklt]

/-- Wrap-around increment acting on a reduced position. -/
theorem ringInc_mod (n t : ℕ) : ringInc n (t % n) = (t + 1) % n := by
  unfold ringInc
  exact Nat.mod_add_mod t n 1

/-! ## Small list utilities for the trace invariant -/

/-- One-element window of a list. -/
theorem drop_take_one {l : List ℕ} {i : ℕ} (h : i < l.length) :
    (l.drop i).take 1 = [l.getD i 0] := by
  rw [List.drop_eq_getElem_cons h]
  rw [List.getD_eq_getElem l 0 h]
  rfl

/-- Reading inside the taken region. -/
theorem getD_take {l : List ℕ} {i k : ℕ} (h : i < k) :
    (l.take k).getD i 0 = l.getD i 0 := by
  simp only [List.getD, List.get?_eq_getElem?]
  rw [List.getElem?_take]
  simp [h]

/-- Reading inside the left part of an append. -/
theorem getD_append_left {l1 l2 : List ℕ} {i : ℕ} (h : i < l1.length) :
    (l1 ++ l2).getD i 0 = l1.getD i 0 := by
  simp [List.getD, List.get?_eq_getElem?, List.getElem?_append_left h]

/-- Length of the finalized window. -/
theorem finOf_length (vs : List ℕ) : (finOf vs).length = vs.length - 1 := by
  unfold finOf
  rw [List.length_take]
  omega

/-- Inside the bound, taking a sublist window commutes with a take. -/
theorem drop_take_window {l : List ℕ} {r k m : ℕ} (hm : r + k ≤ m) :
    ((l.take m).drop r).take k = (l.drop r).take k := by
  rw [List.drop_take]
  rw [List.take_take, min_eq_left (by omega)]

/-- The finalized window is stable under later production. -/
theorem finOf_append_stable (vs ws : List ℕ) {r k : ℕ} (h : r + k ≤ vs.length - 1) :
    ((finOf (vs ++ ws)).drop r).take k = ((finOf vs).drop r).take k := by
  unfold finOf
  rw [List.length_append]
  have hpref : ((vs ++ ws).take (vs.length + ws.length - 1)).take (vs.length - 1) =
      vs.take (vs.length - 1) := by
    rw [List.take_take]
    rw [min_eq_left (by omega)]
    exact List.take_append_of_le_length (by omega)
  have hleft : (((vs ++ ws).take (vs.length + ws.length - 1)).drop r).take k =
      (((((vs ++ ws).take (vs.length + ws.length - 1))).take (vs.length - 1)).drop r).take k := by
    rw [drop_take_window h]
  rw [hleft, hpref, drop_take_window h]

/-- Producing one element of the log window at a time glues into a
prefix window. -/
theorem window_glue {l : List ℕ} {r a b : ℕ} :
    ((l.drop r).take a) ++ ((l.drop (r + a)).take b) = (l.drop r).take (a + b) := by
  rw [List.take_add]
  congr 1
  rw [List.drop_drop]

/-! ## Decomposition lemmas for the consumer list -/

/-- Membership in the notify loop's output comes from a member of the
input with the same parent. -/
theorem notifyConsumers_mem {cp cv : ℕ} {l : List Consumer} {x : Consumer}
    (hx : x ∈ (notifyConsumers cp cv l).1) : ∃ y ∈ l, x.parent = y.parent := by
  induction l with
  | nil => simp [notifyConsumers] at hx
  | cons c cs ih =>
    by_cases h : c.promise = true
    · simp only [notifyConsumers, h, if_true, List.mem_cons] at hx
      rcases hx with hxy | hx
      · exact ⟨c, by simp, by rw [hxy]⟩
      · rcases ih hx with ⟨y, hy, hp⟩
        exact ⟨y, by simp [hy], hp⟩
    · simp only [notifyConsumers, h, if_false, List.mem_cons, Bool.false_eq_true] at hx
      rcases hx with hxy | hx
      · exact ⟨c, by simp, by rw [hxy]⟩
      · rcases ih hx with ⟨y, hy, hp⟩
        exact ⟨y, by simp [hy], hp⟩

/-- The notify loop distributes over list append. -/
theorem notifyConsumers_append (cp cv : ℕ) (l1 l2 : List Consumer) :
    notifyConsumers cp cv (l1 ++ l2) =
      ((notifyConsumers cp cv l1).1 ++ (notifyConsumers cp cv l2).1,
       (notifyConsumers cp cv l1).2 ++ (notifyConsumers cp cv l2).2) := by
  induction l1 with
  | nil => simp [notifyConsumers]
  | cons c cs ih =>
    by_cases h : c.promise = true
    · simp [notifyConsumers, h, ih]
    · simp [notifyConsumers, h, ih]

/-- Consumers none of which is `parent` fulfill no promise of `parent`. -/
theorem notifyConsumers_events_clean {parent cp cv : ℕ} {l : List Consumer}
    (h : ∀ x ∈ l, (x.parent == parent) = false) :
    (notifyConsumers cp cv l).2.filter (fun e => e.1 == parent) = [] := by
  induction l with
  | nil => rfl
  | cons c cs ih =>
    have hc := h c (by simp)
    have ihc := ih fun x hx => h x (by simp [hx])
    by_cases hp : c.promise = true
    · simp only [notifyConsumers, hp, if_true, List.filter_cons, hc]
      exact ihc
    · simp only [notifyConsumers, hp, Bool.false_eq_true, if_false]
      exact ihc

/-- The save-consumed loop distributes over list append, threading the
ring through. -/
theorem saveConsumed_append (nxt : ℕ) (l1 l2 : List Consumer) :
    ∀ ring : List ℕ, saveConsumed nxt ring (l1 ++ l2) =
      ((saveConsumed nxt (saveConsumed nxt ring l1).1 l2).1,
       (saveConsumed nxt ring l1).2 ++ (saveConsumed nxt (saveConsumed nxt ring l1).1 l2).2) := by
  induction l1 with
  | nil => intro ring; rfl
  | cons c cs ih =>
    intro ring
    by_cases h : (nxt == c.pos) = true
    · simp [saveConsumed, h, ih]
    · simp [saveConsumed, h, ih]

/-- `updateFirst` with a predicate that skips a clean front segment and
matches `c` rewrites exactly `c`. -/
theorem updateFirst_append_clean {p : Consumer → Bool} {f : Consumer → Consumer}
    {pre post : List Consumer} {c : Consumer}
    (hpre : ∀ x ∈ pre, p x = false) (hc : p c = true) :
    updateFirst p f (pre ++ c :: post) = pre ++ f c :: post := by
  induction pre with
  | nil =>
    simp only [List.nil_append, updateFirst]
    rw [if_pos hc]
  | cons a as ih =>
    have ha := hpre a (by simp)
    simp only [List.cons_append, updateFirst, List.append_eq]
    rw [if_neg (by simp [ha])]
    rw [ih fun x hx => hpre x (by simp [hx])]

/-- `find?` with a predicate that skips a clean front segment returns the
matching middle element. -/
theorem find?_append_clean {p : Consumer → Bool} {pre post : List Consumer} {c : Consumer}
    (hpre : ∀ x ∈ pre, p x = false) (hc : p c = true) :
    (pre ++ c :: post).find? p = some c := by
  induction pre with
  | nil =>
    simp only [List.nil_append]
    exact List.find?_cons_of_pos _ hc
  | cons a as ih =>
    have ha := hpre a (by simp)
    simp only [List.cons_append]
    rw [List.find?_cons_of_neg _ (by simp [ha])]
    exact ih fun x hx => hpre x (by simp [hx])

/-- `updateFirst` with a predicate false at `c` keeps the decomposition
around `c`, provided the update preserves parents. -/
theorem updateFirst_decomp {p : Consumer → Bool} {f : Consumer → Consumer}
    (pre post : List Consumer) (c : Consumer) (parent : ℕ)
    (hfc : p c = false)
    (hfp : ∀ x, (f x).parent = x.parent)
    (hpre : ∀ x ∈ pre, (x.parent == parent) = false)
    (hpost : ∀ x ∈ post, (x.parent == parent) = false) :
    ∃ pre2 post2, updateFirst p f (pre ++ c :: post) = pre2 ++ c :: post2 ∧
      (∀ x ∈ pre2, (x.parent == parent) = false) ∧
      (∀ x ∈ post2, (x.parent == parent) = false) := by
  induction pre with
  | nil =>
    simp only [List.nil_append, updateFirst]
    rw [if_neg (by simp [hfc])]
    refine ⟨[], updateFirst p f post, rfl, by simp, ?_⟩
    intro x hx
    rcases updateFirst_mem hx with ⟨y, hy, h | h⟩
    · subst h
      exact hpost _ hy
    · subst h
      rw [show (f y).parent = y.parent from hfp y]
      exact hpost _ hy
  | cons a as ih =>
    have ha := hpre a (by simp)
    rcases ih (fun x hx => hpre x (by simp [hx])) with ⟨pre2, post2, heq, hp2, hq2⟩
    by_cases hpa : p a = true
    · refine ⟨f a :: as, post, ?_, ?_, hpost⟩
      · simp only [List.cons_append, updateFirst]
        rw [if_pos hpa]
        rfl
      · intro x hx
        rcases List.mem_cons.mp hx with hx | hx
        · subst hx
          rw [hfp a]
          exact ha
        · exact hpre x (by simp [hx])
    · refine ⟨a :: pre2, post2, ?_, ?_, hq2⟩
      · simp only [List.cons_append, updateFirst, List.append_eq]
        rw [if_neg hpa, heq]
      · intro x hx
        rcases List.mem_cons.mp hx with hx | hx
        · subst hx
          exact ha
        · exact hp2 x hx

/-- Erasing by a predicate false at `c` keeps `c` and only removes other
elements. -/
theorem eraseP_decomp {q : Consumer → Bool} (pre post : List Consumer) (c : Consumer)
    (hqc : q c = false) :
    ∃ pre2 post2, (pre ++ c :: post).eraseP q = pre2 ++ c :: post2 ∧
      (∀ x ∈ pre2, x ∈ pre) ∧ (∀ x ∈ post2, x ∈ post) := by
  induction pre with
  | nil =>
    simp only [List.nil_append, List.eraseP_cons, hqc, cond_false]
    refine ⟨[], post.eraseP q, rfl, by simp, ?_⟩
    · intro x hx
      exact (List.eraseP_sublist _).subset hx
  | cons a as ih =>
    simp only [List.cons_append, List.eraseP_cons]
    by_cases hqa : q a = true
    · rw [hqa]
      simp only [cond_true]
      exact ⟨as, post, rfl, fun x hx => by simp [hx], fun x hx => hx⟩
    · rw [Bool.not_eq_true] at hqa
      rw [hqa]
      simp only [cond_false]
      rcases ih with ⟨pre2, post2, heq, hp, hq2⟩
      refine ⟨a :: pre2, post2, by rw [heq]; rfl, ?_, hq2⟩
      intro x hx
      rcases List.mem_cons.mp hx with hx | hx
      · simp [hx]
      · simp [hp x hx]

/-- A consume step of a different consumer contributes no observation
of `parent`. -/
theorem stepOp_consume_other_events (s : SwitchBufferImpl) (parent q : ℕ) (sk : Bool)
    (hq : (q == parent) = false) :
    (stepOp s (.consume q sk)).2.filter (fun e => e.1 == parent) = [] := by
  unfold stepOp
  rcases h : SwitchConsumer s q sk with ⟨s1, res⟩
  cases res <;> simp [h, hq]

/-! ## Trace-invariant preservation, one lemma per operation -/

/-- Registering another consumer preserves the trace invariant. -/
theorem TraceInv_register (parent n : ℕ) (vs : List ℕ) (r : ℕ) (s : SwitchBufferImpl) (q : ℕ)
    (hInv : TraceInv parent n vs r s) (hq : (q == parent) = false) :
    TraceInv parent n vs r (CreateConsumer s q) := by
  obtain ⟨hn2, hring, hcurr, hnext, pre, c, post, hcons, hpre, hpost, hcp, hCInv⟩ := hInv
  refine ⟨hn2, hring, hcurr, hnext, pre, c, post ++ [⟨q, s.ring.length, false, true, 0, false⟩],
    ?_, hpre, ?_, hcp, hCInv⟩
  · show s.consumers ++ [_] = _
    rw [hcons]
    simp
  · intro x hx
    rcases List.mem_append.mp hx with hx | hx
    · exact hpost x hx
    · rcases List.mem_singleton.mp hx with rfl
      exact hq

/-- Unregistering another consumer preserves the trace invariant. -/
theorem TraceInv_unregister (parent n : ℕ) (vs : List ℕ) (r : ℕ) (s : SwitchBufferImpl) (q : ℕ)
    (hInv : TraceInv parent n vs r s) (hq : (q == parent) = false) :
    TraceInv parent n vs r (CloseConsumer s q) := by
  obtain ⟨hn2, hring, hcurr, hnext, pre, c, post, hcons, hpre, hpost, hcp, hCInv⟩ := hInv
  have hqc : (c.parent == q) = false := by
    rw [hcp]
    rw [beq_eq_false_iff_ne] at hq ⊢
    exact fun h => hq h.symm
  rcases eraseP_decomp (q := fun x => x.parent == q) pre post c hqc
    with ⟨pre2, post2, heq, hp, hq2⟩
  refine ⟨hn2, hring, hcurr, hnext, pre2, c, post2, ?_, ?_, ?_, hcp, hCInv⟩
  · show s.consumers.eraseP _ = _
    rw [hcons, heq]
  · exact fun x hx => hpre x (hp x hx)
  · exact fun x hx => hpost x (hq2 x hx)

/-- Closing the producer preserves the trace invariant. -/
theorem TraceInv_close (parent n : ℕ) (vs : List ℕ) (r : ℕ) (s : SwitchBufferImpl)
    (hInv : TraceInv parent n vs r s) :
    TraceInv parent n vs r (CloseProducer s) := by
  obtain ⟨hn2, hring, hcurr, hnext, pre, c, post, hcons, hpre, hpost, hcp, hCInv⟩ := hInv
  refine ⟨hn2, hring, hcurr, hnext, pre.map (fun x => { x with promise := false }),
    { c with promise := false }, post.map (fun x => { x with promise := false }),
    ?_, ?_, ?_, hcp, ?_⟩
  · show s.consumers.map _ = _
    rw [hcons]
    simp
  · intro x hx
    rcases List.mem_map.mp hx with ⟨y, hy, rfl⟩
    exact hpre y hy
  · intro x hx
    rcases List.mem_map.mp hx with ⟨y, hy, rfl⟩
    exact hpost y hy
  · rcases hCInv with ⟨_, hmode⟩
    exact ⟨by intro h; simp at h, hmode⟩

/-- A switch of another consumer preserves the trace invariant. -/
theorem TraceInv_consume_other (parent n : ℕ) (vs : List ℕ) (r : ℕ) (s : SwitchBufferImpl)
    (q : ℕ) (sk : Bool) (hInv : TraceInv parent n vs r s) (hq : (q == parent) = false) :
    TraceInv parent n vs r (SwitchConsumer s q sk).1 := by
  obtain ⟨hn2, hring, hcurr, hnext, pre, c, post, hcons, hpre, hpost, hcp, hCInv⟩ := hInv
  have hqc : (c.parent == q) = false := by
    rw [hcp]
    rw [beq_eq_false_iff_ne] at hq ⊢
    exact fun h => hq h.symm
  have hfin : ∀ (f : Consumer → Consumer), (∀ x, (f x).parent = x.parent) →
      TraceInv parent n vs r { s with consumers := updateFirst (fun x => x.parent == q) f s.consumers } := by
    intro f hfp
    rcases updateFirst_decomp (p := fun x => x.parent == q) pre post c parent hqc hfp hpre hpost
      with ⟨pre2, post2, heq, hp2, hq2⟩
    refine ⟨hn2, hring, hcurr, hnext, pre2, c, post2, ?_, hp2, hq2, hcp, hCInv⟩
    show updateFirst _ f s.consumers = _
    rw [hcons, heq]
  cases hf : s.consumers.find? (fun x => x.parent == q) with
  | none =>
    rw [SwitchConsumer_none s q sk hf]
    exact ⟨hn2, hring, hcurr, hnext, pre, c, post, hcons, hpre, hpost, hcp, hCInv⟩
  | some d =>
    by_cases hguard : s.producer.curr < s.ring.length ∧ d.isEmpty = false
    · rw [SwitchConsumer_immediate s q sk d hf hguard]
      exact hfin _ (fun x => by simp [consumeRead])
    · rw [SwitchConsumer_deferred s q sk d hf hguard]
      by_cases hcl : s.producer.isClosed = true
      · rw [if_pos hcl]
        exact ⟨hn2, hring, hcurr, hnext, pre, c, post, hcons, hpre, hpost, hcp, hCInv⟩
      · rw [if_neg hcl]
        exact hfin _ (fun x => by simp [consumeWait])

/-- Common part of a non-skip read with backlog: the consumer observes
the `(r+1)`-st produced value and the invariant advances to `r + 1`. -/
theorem consume_read_step (parent n : ℕ) (vs : List ℕ) (r : ℕ) (s : SwitchBufferImpl)
    (pre post : List Consumer) (c : Consumer)
    (hn2 : 2 ≤ n)
    (hring : s.ring = writesRing n vs)
    (hcurr : s.producer.curr = currOf n vs.length)
    (hnext : s.producer.next = nextOf n vs.length)
    (hcons : s.consumers = pre ++ c :: post)
    (hpre : ∀ x ∈ pre, (x.parent == parent) = false)
    (hpost : ∀ x ∈ post, (x.parent == parent) = false)
    (hcp : c.parent = parent)
    (hpromf : c.promise = false)
    (hempf : c.isEmpty = false)
    (hfull2 : (if c.isFull then false else c.isFull) = false)
    (hNewPos : consumeNewPos s c false = (r + 1) % n)
    (hA : r + 2 ≤ vs.length)
    (hB : vs.length ≤ r + n) :
    (stepOp s (.consume parent false)).2 = [(parent, vs.getD r 0)] ∧
    TraceInv parent n vs (r + 1) (stepOp s (.consume parent false)).1 := by
  have hlen : s.ring.length = n := by rw [hring]; exact writesRing_length n vs
  have hcpb : (c.parent == parent) = true := by rw [hcp]; exact beq_self_eq_true parent
  have hfind : s.consumers.find? (fun x => x.parent == parent) = some c := by
    rw [hcons]; exact find?_append_clean hpre hcpb
  have ht2 : 2 ≤ vs.length := by omega
  have hcv : s.producer.curr < s.ring.length := by
    rw [hcurr, hlen]
    unfold currOf
    rw [if_neg (by omega)]
    exact Nat.mod_lt _ (by omega)
  have hsc := SwitchConsumer_immediate s parent false c hfind ⟨hcv, hempf⟩
  have hval : s.ring.getD (consumeNewPos s c false) 0 = vs.getD r 0 := by
    rw [hNewPos, hring]
    rw [writesRing_getD n vs (r + 1) (by omega) (by omega) (by omega)]
    congr 1
  have hstep : stepOp s (.consume parent false) =
      ({ s with consumers := updateFirst (fun x => x.parent == parent) (consumeRead s c false) s.consumers },
       [(parent, vs.getD r 0)]) := by
    simp only [stepOp]
    rw [hsc, hval]
  rw [hstep]
  refine ⟨rfl, hn2, hring, hcurr, hnext, pre, consumeRead s c false c, post, ?_, hpre, hpost,
    by simpa [consumeRead] using hcp, ?_, ?_⟩
  · show updateFirst _ _ s.consumers = _
    rw [hcons]
    exact updateFirst_append_clean hpre hcpb
  · intro h
    simp only [consumeRead] at h
    rw [hpromf] at h
    cases h
  · refine Or.inr ⟨by omega, by omega, hNewPos, ?_, ?_, ?_⟩
    · show ((consumeNewPos s c false == s.producer.curr) = true) ↔ r + 1 + 1 = vs.length
      rw [beq_iff_eq, hNewPos, hcurr]
      unfold currOf
      rw [if_neg (by omega)]
      rw [mod_eq_iff_eq_of_window (by omega) (by omega)]
      omega
    · intro h
      simp only [consumeRead] at h
      rw [if_neg (by simp)] at h
      rw [hfull2] at h
      cases h
    · intro _
      omega

/-- A non-skip switch of the tracked consumer preserves the trace
invariant and observes exactly the next window element. -/
theorem TraceInv_consume_self (parent n : ℕ) (vs : List ℕ) (r : ℕ) (s : SwitchBufferImpl)
    (hInv : TraceInv parent n vs r s) :
    TraceInv parent n vs (r + (obsOf parent (stepOp s (.consume parent false)).2).length)
      (stepOp s (.consume parent false)).1 ∧
    obsOf parent (stepOp s (.consume parent false)).2 =
      ((finOf vs).drop r).take (obsOf parent (stepOp s (.consume parent false)).2).length := by
  obtain ⟨hn2, hring, hcurr, hnext, pre, c, post, hcons, hpre, hpost, hcp, hCInv⟩ := hInv
  have hlen : s.ring.length = n := by rw [hring]; exact writesRing_length n vs
  have hcpb : (c.parent == parent) = true := by rw [hcp]; exact beq_self_eq_true parent
  have hfind : s.consumers.find? (fun x => x.parent == parent) = some c := by
    rw [hcons]; exact find?_append_clean hpre hcpb
  rcases hCInv with ⟨hprom, hmode⟩
  by_cases hemp : c.isEmpty = true
  · have hguard : ¬ (s.producer.curr < s.ring.length ∧ c.isEmpty = false) := by
      simp [hemp]
    have hsc := SwitchConsumer_deferred s parent false c hfind hguard
    by_cases hcl : s.producer.isClosed = true
    · rw [if_pos hcl] at hsc
      have hstep : stepOp s (.consume parent false) = (s, []) := by
        simp only [stepOp]
        rw [hsc]
      rw [hstep]
      refine ⟨?_, rfl⟩
      simp only [obsOf, List.filter_nil, List.map_nil, List.length_nil, Nat.add_zero]
      exact ⟨hn2, hring, hcurr, hnext, pre, c, post, hcons, hpre, hpost, hcp, hprom, hmode⟩
    · rw [if_neg hcl] at hsc
      have hstep : stepOp s (.consume parent false) =
          ({ s with consumers := updateFirst (fun x => x.parent == parent) consumeWait s.consumers },
           []) := by
        simp only [stepOp]
        rw [hsc]
      rw [hstep]
      refine ⟨?_, rfl⟩
      simp only [obsOf, List.filter_nil, List.map_nil, List.length_nil, Nat.add_zero]
      refine ⟨hn2, hring, hcurr, hnext, pre, consumeWait c, post, ?_, hpre, hpost,
        by simpa [consumeWait] using hcp, ?_, ?_⟩
      · show updateFirst _ _ s.consumers = _
        rw [hcons]
        exact updateFirst_append_clean hpre hcpb
      · intro _
        refine ⟨by simpa [consumeWait] using hemp, by simpa using hcl⟩
      · exact hmode
  · have hempf : c.isEmpty = false := by simpa using hemp
    have hpromf : c.promise = false := by
      by_cases hp : c.promise = true
      · exact absurd (hprom hp).1 (by simp [hempf])
      · simpa using hp
    have hmain : (stepOp s (.consume parent false)).2 = [(parent, vs.getD r 0)] ∧
        TraceInv parent n vs (r + 1) (stepOp s (.consume parent false)).1 := by
      rcases hmode with ⟨hr0, hposA, hfullA, hempA, htn⟩ |
        ⟨hr1, hrt, hposB, hempB, hfullB, hnfullB⟩
      · subst hr0
        have ht2 : 2 ≤ vs.length := by
          rcases Nat.lt_or_ge vs.length 2 with h | h
          · exact absurd (hempA.mpr (by omega)) (by simp [hempf])
          · exact h
        refine consume_read_step parent n vs 0 s pre post c hn2 hring hcurr hnext hcons hpre
          hpost hcp hpromf hempf (by rw [hfullA]; simp) ?_ (by omega) (by omega)
        · show consumeNewPos s c false = (0 + 1) % n
          unfold consumeNewPos
          rw [if_neg (by simp), if_neg (by simp [hfullA]), hposA, hlen]
          unfold ringInc
          rw [Nat.add_mod_left n 1]
      · by_cases hfl : c.isFull = true
        · have ht : vs.length = r + n := (hfullB hfl).2 hempf
          refine consume_read_step parent n vs r s pre post c hn2 hring hcurr hnext hcons hpre
            hpost hcp hpromf hempf (by rw [hfl]; simp) ?_ (by omega) (by omega)
          · show consumeNewPos s c false = (r + 1) % n
            unfold consumeNewPos
            rw [if_neg (by simp), if_pos hfl, hnext, hlen]
            unfold nextOf
            rw [if_neg (by omega)]
            rw [ringInc_mod]
            rw [ht]
            have : r + n + 1 = r + 1 + n := by omega
            rw [this]
            exact Nat.add_mod_right (r + 1) n
        · have hflf : c.isFull = false := by simpa using hfl
          have hlt : vs.length < r + n := hnfullB hflf
          have hA : r + 2 ≤ vs.length := by
            have := hempB
            rcases Nat.eq_or_lt_of_le hrt with h | h
            · exact absurd (hempB.mpr h) (by simp [hempf])
            · omega
          refine consume_read_step parent n vs r s pre post c hn2 hring hcurr hnext hcons hpre
            hpost hcp hpromf hempf (by rw [hflf]; simp) ?_ hA (by omega)
          · show consumeNewPos s c false = (r + 1) % n
            unfold consumeNewPos
            rw [if_neg (by simp), if_neg (by simp [hflf]), hposB, hlen]
            exact ringInc_mod n r
    rcases hmain with ⟨hev, hinv2⟩
    rw [hev]
    have hobs : obsOf parent [(parent, vs.getD r 0)] = [vs.getD r 0] := by
      simp [obsOf]
    rw [hobs]
    have hfl : r < (finOf vs).length := by
      rw [finOf_length]
      -- r + 1 < vs.length comes from the invariant reached at r + 1
      rcases hinv2 with ⟨_, _, _, _, pre2, c2, post2, _, _, _, _, _, hmode2⟩
      rcases hmode2 with ⟨h0, _⟩ | ⟨_, hrt2, _⟩
      · omega
      · omega
    constructor
    · simpa using hinv2
    · rw [List.length_singleton]
      rw [drop_take_one hfl]
      congr 1
      unfold finOf
      rw [getD_take (by rw [finOf_length] at hfl; omega)]

/-- Parent-cleanliness survives the save-consumed loop. -/
theorem saveConsumed_clean {parent nxt : ℕ} {ring : List ℕ} {l : List Consumer}
    (h : ∀ x ∈ l, (x.parent == parent) = false) :
    ∀ x ∈ (saveConsumed nxt ring l).2, (x.parent == parent) = false := by
  intro x hx
  rcases saveConsumed_snd_mem hx with ⟨y, hy, hpEq, _, _, _⟩
  rw [hpEq]
  exact h y hy

/-- Parent-cleanliness survives the notify loop. -/
theorem notifyConsumers_clean {parent cp cv : ℕ} {l : List Consumer}
    (h : ∀ x ∈ l, (x.parent == parent) = false) :
    ∀ x ∈ (notifyConsumers cp cv l).1, (x.parent == parent) = false := by
  intro x hx
  rcases notifyConsumers_mem hx with ⟨y, hy, hpEq⟩
  rw [hpEq]
  exact h y hy

/-- The notify loop decomposed around the tracked consumer. -/
theorem notify_decomp (parent cp cv : ℕ) (l1 l2 : List Consumer) (c2 : Consumer)
    (h1 : ∀ x ∈ l1, (x.parent == parent) = false)
    (h2 : ∀ x ∈ l2, (x.parent == parent) = false)
    (hcp : c2.parent = parent) :
    (notifyConsumers cp cv (l1 ++ c2 :: l2)).1 =
      (notifyConsumers cp cv l1).1 ++
        (if c2.promise then { c2 with pos := cp, promise := false }
         else { c2 with isEmpty := false }) :: (notifyConsumers cp cv l2).1 ∧
    (∀ x ∈ (notifyConsumers cp cv l1).1, (x.parent == parent) = false) ∧
    (∀ x ∈ (notifyConsumers cp cv l2).1, (x.parent == parent) = false) ∧
    (notifyConsumers cp cv (l1 ++ c2 :: l2)).2.filter (fun e => e.1 == parent) =
      (if c2.promise = true then [(parent, cv)] else []) := by
  have hcpb : (c2.parent == parent) = true := by rw [hcp]; exact beq_self_eq_true parent
  refine ⟨?_, notifyConsumers_clean h1, notifyConsumers_clean h2, ?_⟩
  · rw [notifyConsumers_append]
    by_cases hpr : c2.promise = true
    · simp only [notifyConsumers, hpr, if_true]
    · rw [Bool.not_eq_true] at hpr
      simp only [notifyConsumers, hpr, Bool.false_eq_true, if_false]
  · rw [notifyConsumers_append]
    simp only [List.filter_append]
    rw [notifyConsumers_events_clean h1]
    by_cases hpr : c2.promise = true
    · simp only [notifyConsumers, hpr, if_true, List.filter_cons, hcpb]
      rw [notifyConsumers_events_clean h2]
      simp [hcp]
    · rw [Bool.not_eq_true] at hpr
      simp only [notifyConsumers, hpr, Bool.false_eq_true, if_false]
      rw [notifyConsumers_events_clean h2]
      simp

/-- A producer switch decomposed around the tracked consumer: the other
consumers stay clean, the tracked consumer is transformed by
`prodStepConsumer`, and the only observation of `parent` is the
fulfillment of a pending promise with the buffer at the new `curr`. -/
theorem SwitchProducer_decomp (parent v : ℕ) (s : SwitchBufferImpl)
    (pre post : List Consumer) (c : Consumer)
    (hn2 : 2 ≤ s.ring.length)
    (hcons : s.consumers = pre ++ c :: post)
    (hpre : ∀ x ∈ pre, (x.parent == parent) = false)
    (hpost : ∀ x ∈ post, (x.parent == parent) = false)
    (hcp : c.parent = parent) :
    ∃ pre2 post2 sanct,
      (SwitchProducer s v).1.consumers = pre2 ++ prodStepConsumer s c sanct :: post2 ∧
      (∀ x ∈ pre2, (x.parent == parent) = false) ∧
      (∀ x ∈ post2, (x.parent == parent) = false) ∧
      (SwitchProducer s v).2.filter (fun e => e.1 == parent) =
        (if s.producer.next < s.ring.length ∧ c.promise = true
         then [(parent, s.ring.getD s.producer.next 0)] else []) := by
  have hmid : ∃ sanct R2 post2,
      saveConsumed (ringInc s.ring.length s.producer.next)
          (saveConsumed (ringInc s.ring.length s.producer.next) s.ring pre).1 (c :: post) =
        (R2, (if ringInc s.ring.length s.producer.next == c.pos
              then { c with isFull := true, sanctuary := sanct } else c) :: post2) ∧
      (∀ x ∈ post2, (x.parent == parent) = false) := by
    by_cases htrig : (ringInc s.ring.length s.producer.next == c.pos) = true
    · refine ⟨(saveConsumed (ringInc s.ring.length s.producer.next) s.ring pre).1.getD
          (ringInc s.ring.length s.producer.next) 0,
        (saveConsumed (ringInc s.ring.length s.producer.next)
          ((saveConsumed (ringInc s.ring.length s.producer.next) s.ring pre).1.set
            (ringInc s.ring.length s.producer.next) c.sanctuary) post).1,
        (saveConsumed (ringInc s.ring.length s.producer.next)
          ((saveConsumed (ringInc s.ring.length s.producer.next) s.ring pre).1.set
            (ringInc s.ring.length s.producer.next) c.sanctuary) post).2, ?_, ?_⟩
      · simp only [saveConsumed, htrig, if_true]
      · exact saveConsumed_clean hpost
    · refine ⟨0,
        (saveConsumed (ringInc s.ring.length s.producer.next)
          (saveConsumed (ringInc s.ring.length s.producer.next) s.ring pre).1 post).1,
        (saveConsumed (ringInc s.ring.length s.producer.next)
          (saveConsumed (ringInc s.ring.length s.producer.next) s.ring pre).1 post).2, ?_, ?_⟩
      · rw [Bool.not_eq_true] at htrig
        simp only [saveConsumed, htrig, Bool.false_eq_true, if_false]
      · exact saveConsumed_clean hpost
  rcases hmid with ⟨sanct, R2, post2, hmid, hpost2⟩
  have hsave : saveConsumed (ringInc s.ring.length s.producer.next) s.ring s.consumers =
      (R2, (saveConsumed (ringInc s.ring.length s.producer.next) s.ring pre).2 ++
        (if ringInc s.ring.length s.producer.next == c.pos
         then { c with isFull := true, sanctuary := sanct } else c) :: post2) := by
    rw [hcons, saveConsumed_append, hmid]
  have hpre2 : ∀ x ∈ (saveConsumed (ringInc s.ring.length s.producer.next) s.ring pre).2,
      (x.parent == parent) = false := saveConsumed_clean hpre
  have hc2p : (if ringInc s.ring.length s.producer.next == c.pos
      then { c with isFull := true, sanctuary := sanct } else c).parent = parent := by
    by_cases ht : (ringInc s.ring.length s.producer.next == c.pos) = true
    · rw [if_pos ht]
      exact hcp
    · rw [Bool.not_eq_true] at ht
      simp only [ht, Bool.false_eq_true, if_false]
      exact hcp
  have hc2prom : (if ringInc s.ring.length s.producer.next == c.pos
      then { c with isFull := true, sanctuary := sanct } else c).promise = c.promise := by
    by_cases ht : (ringInc s.ring.length s.producer.next == c.pos) = true
    · rw [if_pos ht]
    · rw [Bool.not_eq_true] at ht
      simp only [ht, Bool.false_eq_true, if_false]
  by_cases hv : s.producer.next < s.ring.length
  · have hnn : s.producer.next ≠ ringInc s.ring.length s.producer.next := by
      intro h
      unfold ringInc at h
      have h1 : s.producer.next % s.ring.length = (s.producer.next + 1) % s.ring.length := by
        rw [Nat.mod_eq_of_lt hv]
        exact h
      have h2 := (mod_eq_iff_eq_of_window (Nat.le_succ _) (by omega)).mp h1
      omega
    have hcurrVal : R2.getD s.producer.next 0 = s.ring.getD s.producer.next 0 := by
      have hR2 : R2 = (saveConsumed (ringInc s.ring.length s.producer.next) s.ring
          s.consumers).1 := by
        rw [hsave]
      rw [hR2]
      exact saveConsumed_fst_getD _ _ _ _ hnn
    have hnd := notify_decomp parent s.producer.next (R2.getD s.producer.next 0)
      (saveConsumed (ringInc s.ring.length s.producer.next) s.ring pre).2 post2
      (if ringInc s.ring.length s.producer.next == c.pos
       then { c with isFull := true, sanctuary := sanct } else c) hpre2 hpost2 hc2p
    have hcons2 : (SwitchProducer s v).1.consumers =
        (notifyConsumers s.producer.next (R2.getD s.producer.next 0)
          ((saveConsumed (ringInc s.ring.length s.producer.next) s.ring pre).2 ++
           (if ringInc s.ring.length s.producer.next == c.pos
            then { c with isFull := true, sanctuary := sanct } else c) :: post2)).1 := by
      simp only [SwitchProducer, hsave, if_pos hv]
    have hevs : (SwitchProducer s v).2 =
        (notifyConsumers s.producer.next (R2.getD s.producer.next 0)
          ((saveConsumed (ringInc s.ring.length s.producer.next) s.ring pre).2 ++
           (if ringInc s.ring.length s.producer.next == c.pos
            then { c with isFull := true, sanctuary := sanct } else c) :: post2)).2 := by
      simp only [SwitchProducer, hsave, if_pos hv]
    refine ⟨(notifyConsumers s.producer.next (R2.getD s.producer.next 0)
        (saveConsumed (ringInc s.ring.length s.producer.next) s.ring pre).2).1,
      (notifyConsumers s.producer.next (R2.getD s.producer.next 0) post2).1, sanct,
      ?_, hnd.2.1, hnd.2.2.1, ?_⟩
    · rw [hcons2, hnd.1]
      congr 2
      unfold prodStepConsumer
      rw [if_pos hv]
    · rw [hevs, hnd.2.2.2]
      by_cases hpr : c.promise = true
      · rw [if_pos (by rw [hc2prom]; exact hpr), if_pos ⟨hv, hpr⟩, hcurrVal]
      · rw [if_neg (by rw [hc2prom]; exact hpr), if_neg (by rintro ⟨_, h2⟩; exact hpr h2)]
  · have hcons2 : (SwitchProducer s v).1.consumers =
        (saveConsumed (ringInc s.ring.length s.producer.next) s.ring pre).2 ++
          (if ringInc s.ring.length s.producer.next == c.pos
           then { c with isFull := true, sanctuary := sanct } else c) :: post2 := by
      simp only [SwitchProducer, hsave, if_neg hv]
    have hevs : (SwitchProducer s v).2 = [] := by
      simp only [SwitchProducer, hsave, if_neg hv]
    refine ⟨(saveConsumed (ringInc s.ring.length s.producer.next) s.ring pre).2, post2, sanct,
      ?_, hpre2, hpost2, ?_⟩
    · rw [hcons2]
      congr 2
      unfold prodStepConsumer
      rw [if_neg hv]
    · rw [hevs]
      rw [if_neg (by rintro ⟨h1, _⟩; exact hv h1)]
      rfl

/-- After one more switch the old `next` becomes the new `curr`. -/
theorem currOf_succ (n t : ℕ) : currOf n (t + 1) = nextOf n t := by
  unfold currOf nextOf
  by_cases h : t = 0
  · subst h
    rfl
  · rw [if_neg (by omega), if_neg h]
    congr 1

/-- One wrap-around increment advances the `next` ghost position. -/
theorem nextOf_succ (n t : ℕ) : ringInc n (nextOf n t) = nextOf n (t + 1) := by
  unfold nextOf
  by_cases h : t = 0
  · subst h
    rw [if_pos rfl, if_neg (by omega)]
    unfold ringInc
    exact Nat.add_mod_left n 1
  · rw [if_neg h, if_neg (by omega)]
    exact ringInc_mod n t

/-- Finalizing one more value extends the window to the whole old list. -/
theorem finOf_concat (vs : List ℕ) (v : ℕ) : finOf (vs ++ [v]) = vs := by
  unfold finOf
  rw [List.length_append, List.length_singleton]
  have h : vs.length + 1 - 1 = vs.length := by omega
  rw [h]
  rw [List.take_append_of_le_length (Nat.le_refl _)]
  exact List.take_length vs

/-- A producer switch preserves the trace invariant and observes exactly
the fulfilled promise, provided the lag discipline holds. -/
theorem TraceInv_produce (parent n : ℕ) (vs : List ℕ) (r : ℕ) (s : SwitchBufferImpl) (v : ℕ)
    (hInv : TraceInv parent n vs r s)
    (hlag : vs.length + 1 ≤ r + (obsOf parent (stepOp s (.produce v)).2).length + n) :
    TraceInv parent n (vs ++ [v]) (r + (obsOf parent (stepOp s (.produce v)).2).length)
      (stepOp s (.produce v)).1 ∧
    obsOf parent (stepOp s (.produce v)).2 =
      ((finOf (vs ++ [v])).drop r).take (obsOf parent (stepOp s (.produce v)).2).length := by
  obtain ⟨hn2, hring, hcurr, hnext, pre, c, post, hcons, hpre, hpost, hcp, hprom, hmode⟩ := hInv
  have hlen : s.ring.length = n := by rw [hring]; exact writesRing_length n vs
  rw [stepOp_produce] at hlag ⊢
  obtain ⟨pre2, post2, sanct, hcons2, hpre2, hpost2, hfilt⟩ :=
    SwitchProducer_decomp parent v s pre post c (by rw [hlen]; exact hn2) hcons hpre hpost hcp
  have hobs : obsOf parent (SwitchProducer s v).2 =
      (if s.producer.next < s.ring.length ∧ c.promise = true
       then [s.ring.getD s.producer.next 0] else []) := by
    unfold obsOf
    rw [hfilt]
    by_cases h : s.producer.next < s.ring.length ∧ c.promise = true
    · rw [if_pos h, if_pos h]
      rfl
    · rw [if_neg h, if_neg h]
      rfl
  have hring2 : (SwitchProducer s v).1.ring = writesRing n (vs ++ [v]) := by
    show ((saveConsumed (ringInc s.ring.length s.producer.next) s.ring s.consumers).1).set
      (ringInc s.ring.length s.producer.next) v = _
    rw [saveConsumed_fst_set, writesRing_append, hring]
    congr 1
    rw [writesRing_length, hnext, nextOf_succ]
    unfold nextOf
    rw [if_neg (by omega)]
  have hcurr2 : (SwitchProducer s v).1.producer.curr = currOf n (vs ++ [v]).length := by
    rw [SwitchProducer_producerState]
    show s.producer.next = _
    rw [List.length_append, List.length_singleton, currOf_succ]
    exact hnext
  have hnext2 : (SwitchProducer s v).1.producer.next = nextOf n (vs ++ [v]).length := by
    rw [SwitchProducer_producerState]
    show ringInc s.ring.length s.producer.next = _
    rw [List.length_append, List.length_singleton, hlen, hnext]
    exact nextOf_succ n vs.length
  have hclosed2 : (SwitchProducer s v).1.producer.isClosed = s.producer.isClosed := by
    rw [SwitchProducer_producerState]
  by_cases hv : s.producer.next < s.ring.length
  case neg =>
    have ht0 : vs.length = 0 := by
      by_contra hh
      apply hv
      rw [hnext, hlen]
      unfold nextOf
      rw [if_neg hh]
      exact Nat.mod_lt _ (by omega)
    have hobs0 : obsOf parent (SwitchProducer s v).2 = [] := by
      rw [hobs, if_neg (fun hh => hv hh.1)]
    rw [hobs0]
    simp only [List.length_nil, Nat.add_zero, List.take_zero]
    refine ⟨?_, trivial⟩
    have htrigF : (ringInc s.ring.length s.producer.next == c.pos) = false := by
      rcases hmode with ⟨hr0, hposA, _, _, _⟩ | ⟨_, hrt, _, _, _, _⟩
      · rw [hposA]
        rw [hlen, hnext]
        unfold nextOf ringInc
        rw [if_pos ht0]
        exact beq_eq_false_iff_ne.mpr (fun hh => by
          have hlt := Nat.mod_lt (n + 1) (show 0 < n by omega)
          omega)
      · omega
    have hc3 : prodStepConsumer s c sanct = c := by
      unfold prodStepConsumer
      simp only [htrigF, Bool.false_eq_true, if_false]
      rw [if_neg hv]
    rw [hc3] at hcons2
    refine ⟨hn2, hring2, hcurr2, hnext2, pre2, c, post2, hcons2, hpre2, hpost2, hcp, ?_, ?_⟩
    · rw [hclosed2]
      exact hprom
    · rcases hmode with ⟨hr0, hposA, hfullA, hempA, _⟩ | ⟨_, hrt, _, _, _, _⟩
      · refine Or.inl ⟨hr0, hposA, hfullA, ?_,
          by rw [List.length_append, List.length_singleton]; omega⟩
        rw [List.length_append, List.length_singleton, ht0]
        rw [ht0] at hempA
        constructor
        · intro _
          omega
        · intro _
          exact hempA.mpr (by omega)
      · omega
  case pos =>
    have ht1 : 1 ≤ vs.length := by
      by_contra hh
      rw [hnext, hlen] at hv
      unfold nextOf at hv
      rw [if_pos (by omega)] at hv
      omega
    have hnx : ringInc s.ring.length s.producer.next = (vs.length + 1) % n := by
      rw [hlen, hnext, nextOf_succ]
      unfold nextOf
      rw [if_neg (by omega)]
    have hval : s.ring.getD s.producer.next 0 = vs.getD (vs.length - 1) 0 := by
      rw [hring, hnext]
      unfold nextOf
      rw [if_neg (by omega)]
      exact writesRing_getD n vs vs.length ht1 (Nat.le_refl _) (by omega)
    by_cases hpr : c.promise = true
    case pos =>
      obtain ⟨hce, hcl⟩ := hprom hpr
      have hobs1 : obsOf parent (SwitchProducer s v).2 = [vs.getD (vs.length - 1) 0] := by
        rw [hobs, if_pos ⟨hv, hpr⟩, hval]
      rw [hobs1]
      simp only [List.length_singleton]
      have hrt1 : r + 1 = vs.length := by
        rcases hmode with ⟨hr0, _, _, hempA, _⟩ | ⟨_, _, _, hempB, _, _⟩
        · have := hempA.mp hce
          omega
        · exact hempB.mp hce
      constructor
      · obtain ⟨f, q, hc3, hf2⟩ : ∃ f q, prodStepConsumer s c sanct =
            { parent := c.parent, pos := s.producer.next, isFull := f,
              isEmpty := c.isEmpty, sanctuary := q, promise := false } ∧
            (f = true → n = 2) := by
          by_cases htr : (ringInc s.ring.length s.producer.next == c.pos) = true
          · refine ⟨true, sanct, ?_, fun _ => ?_⟩
            · simp [prodStepConsumer, htr, hpr, hv]
            · have heq := beq_iff_eq.mp htr
              rcases hmode with ⟨hr0, hposA, _, _, _⟩ | ⟨hr1, hrt, hposB, _, _, _⟩
              · rw [hposA, hnx] at heq
                have := Nat.mod_lt (vs.length + 1) (show 0 < n by omega)
                omega
              · rw [hposB, hnx] at heq
                have hdvd : n ∣ (vs.length + 1) - r :=
                  (Nat.modEq_iff_dvd' (by omega)).mp heq.symm
                have := Nat.le_of_dvd (by omega) hdvd
                omega
          · have htr2 : (ringInc s.ring.length s.producer.next == c.pos) = false := by
              simpa using htr
            refine ⟨c.isFull, c.sanctuary, ?_, fun hfl => ?_⟩
            · simp [prodStepConsumer, htr2, hpr, hv]
            · rcases hmode with ⟨_, _, hfullA, _, _⟩ | ⟨_, _, _, _, hfullB, _⟩
              · rw [hfullA] at hfl
                cases hfl
              · exact ((hfullB hfl).1 hce).2
        rw [hc3] at hcons2
        refine ⟨hn2, hring2, hcurr2, hnext2, pre2, _, post2, hcons2, hpre2, hpost2, hcp, ?_, ?_⟩
        · intro h
          simp at h
        · refine Or.inr ⟨by omega, ?_, ?_, ?_, ?_, ?_⟩
          · simp only [List.length_append, List.length_singleton]
            omega
          · show s.producer.next = (r + 1) % n
            rw [hnext]
            unfold nextOf
            rw [if_neg (by omega), hrt1]
          · simp only [List.length_append, List.length_singleton]
            show c.isEmpty = true ↔ _
            rw [hce]
            constructor
            · intro _
              omega
            · intro _
              rfl
          · intro hfl
            refine ⟨fun _ => ⟨?_, hf2 hfl⟩, fun hne => ?_⟩
            · simp only [List.length_append, List.length_singleton]
              omega
            · simp [hce] at hne
          · intro _
            simp only [List.length_append, List.length_singleton]
            omega
      · rw [finOf_concat]
        rw [drop_take_one (by omega)]
        have hre : vs.length - 1 = r := by omega
        rw [hre]
    case neg =>
      have hobs0 : obsOf parent (SwitchProducer s v).2 = [] := by
        rw [hobs, if_neg (fun hh => hpr hh.2)]
      rw [hobs0]
      simp only [List.length_nil, Nat.add_zero, List.take_zero]
      refine ⟨?_, trivial⟩
      have hlag2 : vs.length + 1 ≤ r + n := by
        rw [hobs0] at hlag
        simp only [List.length_nil, Nat.add_zero] at hlag
        exact hlag
      have hprF : c.promise = false := by simpa using hpr
      rcases hmode with ⟨hr0, hposA, hfullA, hempA, htn⟩ |
        ⟨hr1, hrt, hposB, hempB, hfullB, hnfullB⟩
      · have htrigF : (ringInc s.ring.length s.producer.next == c.pos) = false := by
          rw [hposA, hnx]
          refine beq_eq_false_iff_ne.mpr (fun hh => ?_)
          have := Nat.mod_lt (vs.length + 1) (show 0 < n by omega)
          omega
        have hc3 : prodStepConsumer s c sanct = { c with isEmpty := false } := by
          simp [prodStepConsumer, htrigF, hprF, hv]
        rw [hc3] at hcons2
        refine ⟨hn2, hring2, hcurr2, hnext2, pre2, _, post2, hcons2, hpre2, hpost2, hcp, ?_, ?_⟩
        · intro h
          simp [hprF] at h
        · refine Or.inl ⟨hr0, hposA, hfullA, ?_, ?_⟩
          · simp only [List.length_append, List.length_singleton]
            constructor
            · intro h
              simp at h
            · intro h
              exact absurd h (by omega)
          · simp only [List.length_append, List.length_singleton]
            omega
      · by_cases hfull2 : vs.length + 1 = r + n
        · have htrigT : (ringInc s.ring.length s.producer.next == c.pos) = true := by
            rw [hposB, hnx]
            refine beq_iff_eq.mpr ?_
            rw [hfull2]
            exact Nat.add_mod_right r n
          have hc3 : prodStepConsumer s c sanct =
              { c with isFull := true, sanctuary := sanct, isEmpty := false } := by
            simp [prodStepConsumer, htrigT, hprF, hv]
          rw [hc3] at hcons2
          refine ⟨hn2, hring2, hcurr2, hnext2, pre2, _, post2, hcons2, hpre2, hpost2, hcp,
            ?_, ?_⟩
          · intro h
            simp [hprF] at h
          · refine Or.inr ⟨hr1, ?_, hposB, ?_, ?_, ?_⟩
            · simp only [List.length_append, List.length_singleton]
              omega
            · simp only [List.length_append, List.length_singleton]
              constructor
              · intro h
                simp at h
              · intro h
                exact absurd h (by omega)
            · intro _
              constructor
              · intro h
                simp at h
              · intro _
                simp only [List.length_append, List.length_singleton]
                omega
            · intro h
              simp at h
        · have htrigF : (ringInc s.ring.length s.producer.next == c.pos) = false := by
            rw [hposB, hnx]
            refine beq_eq_false_iff_ne.mpr (fun hh => ?_)
            have hdvd : n ∣ (vs.length + 1) - r :=
              (Nat.modEq_iff_dvd' (by omega)).mp hh.symm
            have := Nat.le_of_dvd (by omega) hdvd
            omega
          have hflF : c.isFull = false := by
            by_cases hfl : c.isFull = true
            · by_cases hemp : c.isEmpty = true
              · exfalso
                have h2 := (hfullB hfl).1 hemp
                omega
              · exfalso
                have hempF : c.isEmpty = false := by simpa using hemp
                have h2 := (hfullB hfl).2 hempF
                omega
            · simpa using hfl
          have hc3 : prodStepConsumer s c sanct = { c with isEmpty := false } := by
            simp [prodStepConsumer, htrigF, hprF, hv]
          rw [hc3] at hcons2
          refine ⟨hn2, hring2, hcurr2, hnext2, pre2, _, post2, hcons2, hpre2, hpost2, hcp,
            ?_, ?_⟩
          · intro h
            simp [hprF] at h
          · refine Or.inr ⟨hr1, ?_, hposB, ?_, ?_, ?_⟩
            · simp only [List.length_append, List.length_singleton]
              omega
            · simp only [List.length_append, List.length_singleton]
              constructor
              · intro h
                simp at h
              · intro h
                exact absurd h (by omega)
            · intro h
              simp [hflF] at h
            · intro _
              simp only [List.length_append, List.length_singleton]
              omega

/-- Observations split along an event-log append. -/
theorem obsOf_append (parent : ℕ) (l1 l2 : List (ℕ × ℕ)) :
    obsOf parent (l1 ++ l2) = obsOf parent l1 ++ obsOf parent l2 := by
  unfold obsOf
  rw [List.filter_append, List.map_append]

/-- The number of observations is the number of matching events. -/
theorem obsOf_length (parent : ℕ) (log : List (ℕ × ℕ)) :
    (obsOf parent log).length = (log.filter fun e => e.1 == parent).length := by
  unfold obsOf
  rw [List.length_map]

/-- Under the invariant the observation count lags the finalized count. -/
theorem TraceInv_r_bound (parent n : ℕ) (vs : List ℕ) (r : ℕ) (s : SwitchBufferImpl)
    (hInv : TraceInv parent n vs r s) : r ≤ vs.length - 1 := by
  obtain ⟨_, _, _, _, _, c, _, _, _, _, _, _, hmode⟩ := hInv
  rcases hmode with ⟨hr0, _, _, _, _⟩ | ⟨_, hrt, _, _, _, _⟩ <;> omega

/-- Running a lag-disciplined operation list preserves the trace invariant
and the tracked consumer observes exactly the next window of finalized
values. -/
theorem TraceInv_run (parent n : ℕ) (ops : List Op) :
    ∀ (vs : List ℕ) (r : ℕ) (s : SwitchBufferImpl),
    TraceInv parent n vs r s →
    traceOk parent n s vs.length r ops = true →
    TraceInv parent n (vs ++ producedVals ops)
      (r + (obsOf parent (runOps s ops).2).length) (runOps s ops).1 ∧
    obsOf parent (runOps s ops).2 =
      ((finOf (vs ++ producedVals ops)).drop r).take
        (obsOf parent (runOps s ops).2).length := by
  induction ops with
  | nil =>
    intro vs r s hInv _
    constructor
    · simpa [runOps, obsOf, producedVals] using hInv
    · simp [runOps, obsOf, producedVals]
  | cons op ops ih =>
    intro vs r s hInv hok
    have hrun1 : (runOps s (op :: ops)).1 = (runOps (stepOp s op).1 ops).1 := rfl
    have hrun2 : (runOps s (op :: ops)).2 =
        (stepOp s op).2 ++ (runOps (stepOp s op).1 ops).2 := rfl
    cases op with
    | register q =>
      simp only [traceOk, stepOp, List.filter_nil, List.length_nil, Nat.add_zero,
        Bool.and_true, Bool.true_and, Bool.and_eq_true, Bool.not_eq_true'] at hok
      obtain ⟨hq, hok2⟩ := hok
      have hInv1 : TraceInv parent n vs r (stepOp s (.register q)).1 :=
        TraceInv_register parent n vs r s q hInv hq
      have hres := ih vs r (stepOp s (.register q)).1 hInv1 hok2
      rw [hrun1, hrun2]
      have hev : (stepOp s (.register q)).2 = [] := rfl
      rw [hev, List.nil_append]
      have hpv : producedVals (Op.register q :: ops) = producedVals ops := rfl
      rw [hpv]
      exact hres
    | unregister q =>
      simp only [traceOk, stepOp, List.filter_nil, List.length_nil, Nat.add_zero,
        Bool.and_true, Bool.true_and, Bool.and_eq_true, Bool.not_eq_true'] at hok
      obtain ⟨hq, hok2⟩ := hok
      have hInv1 : TraceInv parent n vs r (stepOp s (.unregister q)).1 :=
        TraceInv_unregister parent n vs r s q hInv hq
      have hres := ih vs r (stepOp s (.unregister q)).1 hInv1 hok2
      rw [hrun1, hrun2]
      have hev : (stepOp s (.unregister q)).2 = [] := rfl
      rw [hev, List.nil_append]
      have hpv : producedVals (Op.unregister q :: ops) = producedVals ops := rfl
      rw [hpv]
      exact hres
    | close =>
      simp only [traceOk, stepOp, List.filter_nil, List.length_nil, Nat.add_zero,
        Bool.and_true, Bool.true_and] at hok
      have hInv1 : TraceInv parent n vs r (stepOp s .close).1 :=
        TraceInv_close parent n vs r s hInv
      have hres := ih vs r (stepOp s .close).1 hInv1 hok
      rw [hrun1, hrun2]
      have hev : (stepOp s .close).2 = [] := rfl
      rw [hev, List.nil_append]
      have hpv : producedVals (Op.close :: ops) = producedVals ops := rfl
      rw [hpv]
      exact hres
    | produce v =>
      simp only [traceOk, stepOp, Bool.true_and, Bool.and_eq_true, decide_eq_true_eq] at hok
      obtain ⟨hlag1, hok1⟩ := hok
      have hlag2 : vs.length + 1 ≤
          r + (obsOf parent (stepOp s (.produce v)).2).length + n := by
        rw [obsOf_length]
        exact hlag1
      obtain ⟨hInv1, hwin1⟩ := TraceInv_produce parent n vs r s v hInv hlag2
      have hok2 : traceOk parent n (stepOp s (.produce v)).1 (vs ++ [v]).length
          (r + (obsOf parent (stepOp s (.produce v)).2).length) ops = true := by
        rw [List.length_append, List.length_singleton, obsOf_length]
        exact hok1
      obtain ⟨hInv2, hwin2⟩ := ih (vs ++ [v])
        (r + (obsOf parent (stepOp s (.produce v)).2).length)
        (stepOp s (.produce v)).1 hInv1 hok2
      rw [hrun1, hrun2, obsOf_append, List.length_append]
      have hpv : producedVals (Op.produce v :: ops) = v :: producedVals ops := rfl
      rw [hpv]
      have hassoc : vs ++ v :: producedVals ops = (vs ++ [v]) ++ producedVals ops := by
        simp
      rw [hassoc]
      constructor
      · rw [← Nat.add_assoc]
        exact hInv2
      · have hbound : r + (obsOf parent (stepOp s (.produce v)).2).length ≤
            (vs ++ [v]).length - 1 :=
          TraceInv_r_bound parent n (vs ++ [v]) _ _ hInv1
        conv_lhs => rw [hwin1, hwin2]
        rw [← finOf_append_stable (vs ++ [v]) (producedVals ops) hbound]
        exact window_glue
    | consume q sk =>
      by_cases hq : (q == parent) = true
      · have hqeq : q = parent := beq_iff_eq.mp hq
        subst q
        simp only [traceOk, beq_self_eq_true, Bool.not_true, Bool.false_or,
          Bool.and_true, Bool.true_and, Bool.and_eq_true, Bool.not_eq_true'] at hok
        obtain ⟨hsk, hok1⟩ := hok
        subst hsk
        obtain ⟨hInv1, hwin1⟩ := TraceInv_consume_self parent n vs r s hInv
        have hok2 : traceOk parent n (stepOp s (.consume parent false)).1 vs.length
            (r + (obsOf parent (stepOp s (.consume parent false)).2).length) ops = true := by
          rw [obsOf_length]
          exact hok1
        obtain ⟨hInv2, hwin2⟩ := ih vs
          (r + (obsOf parent (stepOp s (.consume parent false)).2).length)
          (stepOp s (.consume parent false)).1 hInv1 hok2
        rw [hrun1, hrun2, obsOf_append, List.length_append]
        have hpv : producedVals (Op.consume parent false :: ops) = producedVals ops := rfl
        rw [hpv]
        constructor
        · rw [← Nat.add_assoc]
          exact hInv2
        · have hbound : r + (obsOf parent (stepOp s (.consume parent false)).2).length ≤
              vs.length - 1 := TraceInv_r_bound parent n vs _ _ hInv1
          conv_lhs => rw [hwin1, hwin2]
          rw [← finOf_append_stable vs (producedVals ops) hbound]
          exact window_glue
      · have hqf : (q == parent) = false := by simpa using hq
        simp only [traceOk, hqf, Bool.not_false, Bool.true_or, Bool.true_and,
          Bool.and_eq_true] at hok
        rw [stepOp_consume_other_events s parent q sk hqf] at hok
        simp only [List.length_nil, Nat.add_zero] at hok
        have hInv1 : TraceInv parent n vs r (stepOp s (.consume q sk)).1 := by
          rw [stepOp_consume_fst]
          exact TraceInv_consume_other parent n vs r s q sk hInv hqf
        obtain ⟨hInv2, hwin2⟩ := ih vs r (stepOp s (.consume q sk)).1 hInv1 hok
        have hev : obsOf parent (stepOp s (.consume q sk)).2 = [] := by
          unfold obsOf
          rw [stepOp_consume_other_events s parent q sk hqf]
          rfl
        rw [hrun1, hrun2, obsOf_append, hev, List.nil_append]
        have hpv : producedVals (Op.consume q sk :: ops) = producedVals ops := rfl
        rw [hpv]
        exact ⟨hInv2, hwin2⟩

/-- The invariant holds right after registering the consumer on a fresh
core. -/
theorem TraceInv_init (parent n : ℕ) (hn : 2 ≤ n) :
    TraceInv parent n [] 0 (CreateConsumer (initImpl n) parent) := by
  refine ⟨hn, rfl, rfl, rfl, [],
    ⟨parent, (initImpl n).ring.length, false, true, 0, false⟩, [],
    rfl, ?_, ?_, rfl, ?_, ?_⟩
  · intro x hx
    cases hx
  · intro x hx
    cases hx
  · intro h
    exact Bool.noConfusion h
  · refine Or.inl ⟨rfl, ?_, rfl, by simp, by simp⟩
    show (initImpl n).ring.length = n
    simp [initImpl]

/-- While the tracked consumer still has finalized backlog, a non-skip
switch resolves immediately: exactly one observation. -/
theorem consume_progress (parent n : ℕ) (vs : List ℕ) (r : ℕ) (s : SwitchBufferImpl)
    (hInv : TraceInv parent n vs r s) (hbl : r + 1 ≤ vs.length - 1) :
    (obsOf parent (stepOp s (.consume parent false)).2).length = 1 := by
  obtain ⟨hn2, hring, hcurr, hnext, pre, c, post, hcons, hpre, hpost, hcp, hprom, hmode⟩ := hInv
  have hlen : s.ring.length = n := by rw [hring]; exact writesRing_length n vs
  have ht2 : 2 ≤ vs.length := by omega
  have hcpb : (c.parent == parent) = true := by rw [hcp]; exact beq_self_eq_true parent
  have hfind : s.consumers.find? (fun x => x.parent == parent) = some c := by
    rw [hcons]; exact find?_append_clean hpre hcpb
  have hemp : c.isEmpty = false := by
    rcases hmode with ⟨hr0, _, _, hempA, _⟩ | ⟨_, _, _, hempB, _, _⟩
    · by_cases h : c.isEmpty = true
      · exact absurd (hempA.mp h) (by omega)
      · simpa using h
    · by_cases h : c.isEmpty = true
      · exact absurd (hempB.mp h) (by omega)
      · simpa using h
  have hguard : s.producer.curr < s.ring.length ∧ c.isEmpty = false := by
    refine ⟨?_, hemp⟩
    rw [hcurr, hlen]
    unfold currOf
    rw [if_neg (by omega)]
    exact Nat.mod_lt _ (by omega)
  rw [show stepOp s (.consume parent false) =
      ({ s with consumers := updateFirst (fun x => x.parent == parent) (consumeRead s c false) s.consumers },
        [(parent, s.ring.getD (consumeNewPos s c false) 0)]) from by
    simp only [stepOp, SwitchConsumer_immediate s parent false c hfind hguard]]
  simp [obsOf]

/-- Draining `k` values of backlog by `k` non-skip switches: they observe
exactly the next `k` finalized values, preserve the invariant, and leave
the producer substate untouched. -/
theorem drain_run (parent n : ℕ) (k : ℕ) :
    ∀ (vs : List ℕ) (r : ℕ) (s : SwitchBufferImpl),
    TraceInv parent n vs r s →
    r + k ≤ vs.length - 1 →
    obsOf parent (runOps s (List.replicate k (.consume parent false))).2 =
      ((finOf vs).drop r).take k ∧
    TraceInv parent n vs (r + k)
      (runOps s (List.replicate k (.consume parent false))).1 ∧
    (runOps s (List.replicate k (.consume parent false))).1.producer =
      s.producer := by
  induction k with
  | zero =>
    intro vs r s hInv hk
    refine ⟨by simp [runOps, obsOf], ?_, rfl⟩
    simpa using hInv
  | succ k ihk =>
    intro vs r s hInv hk
    have hlen1 : (obsOf parent (stepOp s (.consume parent false)).2).length = 1 :=
      consume_progress parent n vs r s hInv (by omega)
    obtain ⟨hInv1, hwin1⟩ := TraceInv_consume_self parent n vs r s hInv
    rw [hlen1] at hInv1 hwin1
    obtain ⟨hobs2, hInv2, hprod2⟩ :=
      ihk vs (r + 1) (stepOp s (.consume parent false)).1 hInv1 (by omega)
    have hrep : List.replicate (k + 1) (Op.consume parent false) =
        Op.consume parent false :: List.replicate k (.consume parent false) := rfl
    rw [hrep]
    have hrun1 : (runOps s
        (Op.consume parent false :: List.replicate k (Op.consume parent false))).1 =
        (runOps (stepOp s (Op.consume parent false)).1
          (List.replicate k (Op.consume parent false))).1 := rfl
    have hrun2 : (runOps s
        (Op.consume parent false :: List.replicate k (Op.consume parent false))).2 =
        (stepOp s (Op.consume parent false)).2 ++
        (runOps (stepOp s (Op.consume parent false)).1
          (List.replicate k (Op.consume parent false))).2 := rfl
    rw [hrun1, hrun2, obsOf_append]
    refine ⟨?_, ?_, ?_⟩
    · rw [hobs2, hwin1, window_glue, Nat.add_comm 1 k]
    · rw [show r + (k + 1) = (r + 1) + k by omega]
      exact hInv2
    · rw [hprod2, stepOp_consume_fst]
      exact SwitchConsumer_producer s parent false
  
/-- Once the producer is closed and the tracked consumer has caught up
with everything finalized, the next switch is broken. -/
theorem consume_broken (parent n : ℕ) (vs : List ℕ) (r : ℕ) (s : SwitchBufferImpl)
    (hInv : TraceInv parent n vs r s) (hcl : s.producer.isClosed = true)
    (hr : vs.length - 1 ≤ r) :
    (SwitchConsumer s parent false).2 = .broken := by
  obtain ⟨hn2, hring, hcurr, hnext, pre, c, post, hcons, hpre, hpost, hcp, hprom, hmode⟩ := hInv
  have hcpb : (c.parent == parent) = true := by rw [hcp]; exact beq_self_eq_true parent
  have hfind : s.consumers.find? (fun x => x.parent == parent) = some c := by
    rw [hcons]; exact find?_append_clean hpre hcpb
  have hemp : c.isEmpty = true := by
    rcases hmode with ⟨hr0, _, _, hempA, _⟩ | ⟨_, hrt, _, hempB, _, _⟩
    · exact hempA.mpr (by omega)
    · exact hempB.mpr (by omega)
  have hguard : ¬ (s.producer.curr < s.ring.length ∧ c.isEmpty = false) := by
    rintro ⟨_, h⟩
    rw [hemp] at h
    exact Bool.noConfusion h
  rw [SwitchConsumer_deferred s parent false c hfind hguard, if_pos hcl]

/-- Main consequence of the discipline: a full run from a fresh core
reaches an invariant state and the tracked consumer has observed exactly
a prefix of the finalized values. -/
theorem Disciplined_run (parent n : ℕ) (ops : List Op) (hn : 2 ≤ n)
    (hd : Disciplined parent n ops = true) :
    TraceInv parent n (producedVals ops)
      (obsOf parent (runFrom parent n ops).2).length (runFrom parent n ops).1 ∧
    obsOf parent (runFrom parent n ops).2 =
      (finalizedVals ops).take (obsOf parent (runFrom parent n ops).2).length := by
  obtain ⟨h1, h2⟩ := TraceInv_run parent n ops [] 0 (CreateConsumer (initImpl n) parent)
    (TraceInv_init parent n hn) hd
  constructor
  · simpa [runFrom] using h1
  · simpa [runFrom, finalizedVals] using h2

/-- C1 (amended): for every lag-disciplined finite trace — the consumer
registered before the first switch, never skipping, never re-registered,
and after every producer switch the producer at most the ring capacity
ahead of the consumer's observations — the consumer's observations are
exactly a prefix of the finalized values: in production order, without
duplicate, omission or reordering; and once the consumer has caught up
(`isEmpty` set) it has observed every finalized value. -/
theorem c1_amended (parent n : ℕ) (ops : List Op) (hn : 2 ≤ n)
    (hd : Disciplined parent n ops = true) :
    obsOf parent (runFrom parent n ops).2 =
      (finalizedVals ops).take (obsOf parent (runFrom parent n ops).2).length ∧
    (∀ c, (runFrom parent n ops).1.consumers.find? (fun x => x.parent == parent) = some c →
      c.isEmpty = true → obsOf parent (runFrom parent n ops).2 = finalizedVals ops) := by
  obtain ⟨hInvT, hwin⟩ := Disciplined_run parent n ops hn hd
  refine ⟨hwin, ?_⟩
  intro c hfc hce
  obtain ⟨hn2, hring, hcurr, hnext, pre, c0, post, hcons, hpre, hpost, hcp, hprom, hmode⟩ := hInvT
  have hcpb : (c0.parent == parent) = true := by rw [hcp]; exact beq_self_eq_true parent
  have hfind0 : (runFrom parent n ops).1.consumers.find?
      (fun x => x.parent == parent) = some c0 := by
    rw [hcons]; exact find?_append_clean hpre hcpb
  have hcc : c0 = c := by
    rw [hfind0] at hfc
    exact Option.some.inj hfc
  rw [← hcc] at hce
  have hfl : (finalizedVals ops).length = (producedVals ops).length - 1 := finOf_length _
  have hreq : (obsOf parent (runFrom parent n ops).2).length = (finalizedVals ops).length := by
    rcases hmode with ⟨hr0, _, _, hempA, _⟩ | ⟨_, _, _, hempB, _, _⟩
    · have := hempA.mp hce
      omega
    · have := hempB.mp hce
      omega
  rw [hwin, hreq, List.take_length]

/-- C6 (amended): in the final state of every lag-disciplined trace, the
tracked consumer's `isEmpty` flag holds exactly when its position equals
the producer's `curr` cursor. -/
theorem c6_amended (parent n : ℕ) (ops : List Op) (hn : 2 ≤ n)
    (hd : Disciplined parent n ops = true) (c : Consumer)
    (hfc : (runFrom parent n ops).1.consumers.find? (fun x => x.parent == parent) = some c) :
    emptyIffAtCurr (runFrom parent n ops).1 c := by
  obtain ⟨hInvT, hwin⟩ := Disciplined_run parent n ops hn hd
  obtain ⟨hn2, hring, hcurr, hnext, pre, c0, post, hcons, hpre, hpost, hcp, hprom, hmode⟩ := hInvT
  have hcpb : (c0.parent == parent) = true := by rw [hcp]; exact beq_self_eq_true parent
  have hfind0 : (runFrom parent n ops).1.consumers.find?
      (fun x => x.parent == parent) = some c0 := by
    rw [hcons]; exact find?_append_clean hpre hcpb
  have hcc : c0 = c := by
    rw [hfind0] at hfc
    exact Option.some.inj hfc
  subst hcc
  unfold emptyIffAtCurr
  rw [hcurr]
  unfold currOf
  rcases hmode with ⟨hr0, hposA, _, hempA, _⟩ | ⟨hr1, hrt, hposB, hempB, hfullB, hnfullB⟩
  · by_cases ht1 : (producedVals ops).length ≤ 1
    · rw [if_pos ht1, hposA]
      constructor
      · intro _
        rfl
      · intro _
        exact hempA.mpr ht1
    · rw [if_neg ht1, hposA]
      have hlt : ((producedVals ops).length - 1) % n < n := Nat.mod_lt _ (by omega)
      constructor
      · intro h
        exact absurd (hempA.mp h) ht1
      · intro h
        exact absurd h (by omega)
  · have ht2 : 2 ≤ (producedVals ops).length := by omega
    rw [if_neg (show ¬ (producedVals ops).length ≤ 1 by omega), hposB]
    have hbound : (producedVals ops).length ≤
        (obsOf parent (runFrom parent n ops).2).length + n := by
      by_cases hfl : c0.isFull = true
      · by_cases hce : c0.isEmpty = true
        · have := (hfullB hfl).1 hce
          omega
        · have hcef : c0.isEmpty = false := by simpa using hce
          have := (hfullB hfl).2 hcef
          omega
      · have hflf : c0.isFull = false := by simpa using hfl
        have := hnfullB hflf
        omega
    have hiff := mod_eq_iff_eq_of_window
      (k := (obsOf parent (runFrom parent n ops).2).length)
      (m := (producedVals ops).length - 1) (n := n) (by omega) (by omega)
    rw [hiff]
    constructor
    · intro h
      have := hempB.mp h
      omega
    · intro h
      exact hempB.mpr (by omega)

/-- C4 (amended): after a lag-disciplined trace that closed the producer,
the tracked consumer drains the entire remaining finalized backlog, in
production order, by exactly as many further non-skip switches as there
are unread finalized values, and the switch after that is immediately
broken; a caught-up consumer (empty backlog) is broken immediately. -/
theorem c4_amended (parent n : ℕ) (ops : List Op) (hn : 2 ≤ n)
    (hd : Disciplined parent n ops = true)
    (hcl : (runFrom parent n ops).1.producer.isClosed = true) :
    obsOf parent (runOps (runFrom parent n ops).1
        (List.replicate ((finalizedVals ops).length -
          (obsOf parent (runFrom parent n ops).2).length) (.consume parent false))).2 =
      (finalizedVals ops).drop (obsOf parent (runFrom parent n ops).2).length ∧
    (SwitchConsumer (runOps (runFrom parent n ops).1
        (List.replicate ((finalizedVals ops).length -
          (obsOf parent (runFrom parent n ops).2).length) (.consume parent false))).1
      parent false).2 = .broken := by
  obtain ⟨hInvT, hwin⟩ := Disciplined_run parent n ops hn hd
  have hrb : (obsOf parent (runFrom parent n ops).2).length ≤
      (producedVals ops).length - 1 :=
    TraceInv_r_bound parent n _ _ _ hInvT
  have hfl : (finalizedVals ops).length = (producedVals ops).length - 1 := finOf_length _
  obtain ⟨hobs, hInv2, hprod2⟩ := drain_run parent n
    ((finalizedVals ops).length - (obsOf parent (runFrom parent n ops).2).length)
    (producedVals ops) (obsOf parent (runFrom parent n ops).2).length
    (runFrom parent n ops).1 hInvT (by omega)
  constructor
  · rw [hobs]
    rw [List.take_of_length_le (by rw [List.length_drop, finOf_length]; omega)]
    rfl
  · apply consume_broken parent n (producedVals ops) _ _ hInv2
    · rw [hprod2]
      exact hcl
    · omega

/-- Witness for the amended C1 theorem: capacity 2, two writes, one read. -/
theorem c1_amended_witness :
    Disciplined 0 2 [.produce 10, .produce 20, .consume 0 false] = true ∧
    (obsOf 0 (runFrom 0 2 [.produce 10, .produce 20, .consume 0 false]).2 =
      (finalizedVals [.produce 10, .produce 20, .consume 0 false]).take
        (obsOf 0 (runFrom 0 2 [.produce 10, .produce 20, .consume 0 false]).2).length ∧
    (∀ c, (runFrom 0 2 [.produce 10, .produce 20, .consume 0 false]).1.consumers.find?
        (fun x => x.parent == 0) = some c →
      c.isEmpty = true →
      obsOf 0 (runFrom 0 2 [.produce 10, .produce 20, .consume 0 false]).2 =
        finalizedVals [.produce 10, .produce 20, .consume 0 false])) :=
  ⟨by decide, c1_amended 0 2 [.produce 10, .produce 20, .consume 0 false]
    (by decide) (by decide)⟩

/-- Witness for the amended C6 theorem: the final consumer of a small
disciplined trace is empty and indeed sits at `curr`. -/
theorem c6_amended_witness :
    (runFrom 0 2 [.produce 10, .produce 20, .consume 0 false]).1.consumers.find?
        (fun x => x.parent == 0) = some ⟨0, 1, false, true, 0, false⟩ ∧
    emptyIffAtCurr (runFrom 0 2 [.produce 10, .produce 20, .consume 0 false]).1
      ⟨0, 1, false, true, 0, false⟩ :=
  ⟨by decide, c6_amended 0 2 [.produce 10, .produce 20, .consume 0 false] (by decide)
    (by decide) ⟨0, 1, false, true, 0, false⟩ (by decide)⟩

/-- Witness for the amended C4 theorem: one unread finalized value at
close, drained by one switch, then broken. -/
theorem c4_amended_witness :
    Disciplined 0 2 [.produce 10, .produce 20, .close] = true ∧
    (runFrom 0 2 [.produce 10, .produce 20, .close]).1.producer.isClosed = true ∧
    (obsOf 0 (runOps (runFrom 0 2 [.produce 10, .produce 20, .close]).1
        (List.replicate ((finalizedVals [.produce 10, .produce 20, .close]).length -
          (obsOf 0 (runFrom 0 2 [.produce 10, .produce 20, .close]).2).length)
          (.consume 0 false))).2 =
      (finalizedVals [.produce 10, .produce 20, .close]).drop
        (obsOf 0 (runFrom 0 2 [.produce 10, .produce 20, .close]).2).length ∧
    (SwitchConsumer (runOps (runFrom 0 2 [.produce 10, .produce 20, .close]).1
        (List.replicate ((finalizedVals [.produce 10, .produce 20, .close]).length -
          (obsOf 0 (runFrom 0 2 [.produce 10, .produce 20, .close]).2).length)
          (.consume 0 false))).1 0 false).2 = .broken) :=
  ⟨by decide, by decide, c4_amended 0 2 [.produce 10, .produce 20, .close]
    (by decide) (by decide) (by decide)⟩
